import Mathlib

/-!
Verification development for the dotapi execution engine
(`src/core/src/executor/schema.rs` and `src/core/src/executor/runner.rs`).

The Rust data model and the executor operations are shallowly embedded:
`serde_yaml::Value` becomes `YamlValue`; the `HashMap` collections of the
schema become association lists (`List (String × _)`), with `alookup` as the
map lookup; Rust `Result` plus process-aborting events (`unwrap`,
`assert_ne!`, `unimplemented!`, unbounded recursion) become the three-way
`Outcome` type, whose `panic` constructor records that the Rust process
aborts rather than returning an error value.  File I/O is represented by a
finite map from paths to parsed schemas.  Where iteration order of a Rust
`HashMap`/`HashSet` is observable, the embedding makes the order an explicit
parameter or list so that order (non-)determinism can be reasoned about.
-/

namespace DotApi

/-- Shallow embedding of `serde_yaml::Value` (the `Value` cases used by the
schema: scalars, sequences, mappings; floating point is not modelled). -/
inductive YamlValue where
  | null : YamlValue
  | bool (b : Bool) : YamlValue
  | int (n : Int) : YamlValue
  | str (s : String) : YamlValue
  | list (xs : List YamlValue) : YamlValue
  | map (kvs : List (String × YamlValue)) : YamlValue

/-- Association-list lookup, embedding `HashMap::get` (keys are unique in a
real `HashMap`, so first-match lookup agrees with it). -/
def alookup {α : Type} : List (String × α) → String → Option α
  | [], _ => none
  | (k, v) :: rest, key => if k = key then some v else alookup rest key

/-- Association-list key membership, embedding `HashMap::contains_key`. -/
def containsKey {α : Type} : List (String × α) → String → Bool
  | [], _ => false
  | (k, _) :: rest, key => k = key || containsKey rest key

/-- `EnvironmentVariable` from `schema.rs`: a default value plus a map of
per-environment overrides (the flattened extra keys). -/
structure EnvironmentVariable where
  default : YamlValue
  overrides : List (String × YamlValue)

/-- `User` from `schema.rs`. -/
structure User where
  name : String
  email : String

/-- `Project` from `schema.rs`. -/
structure Project where
  name : String
  version : String
  description : String
  authors : List User
  generator : Option String
  default_env : Option String

/-- `RequestConfig` from `schema.rs`. -/
structure RequestConfig where
  depends_on : List String
  delay : Option String
  timeout : Option String
  retries : Nat

/-- `Script` from `schema.rs`: tagged by `language`. -/
inductive Script where
  | lua (content : String) : Script
  | javascript (content : String) : Script
  | rhai (content : String) : Script

/-- `RequestScriptConfig` from `schema.rs`. -/
structure RequestScriptConfig where
  post_request : Option Script
  pre_request : Option Script

/-- `MultipartPart` from `schema.rs`: tagged by `kind`. -/
inductive MultipartPart where
  | field (name value : String) : MultipartPart
  | file (name path : String) (mime_type : Option String) : MultipartPart

/-- `RequestBody` from `schema.rs`: tagged by `type`. -/
inductive RequestBody where
  | json (content : YamlValue) : RequestBody
  | graphql (query : String) (vars : Option YamlValue) : RequestBody
  | xml (content : String) : RequestBody
  | text (content : String) : RequestBody
  | formUrlencoded (content : String) : RequestBody
  | multipart (parts : List MultipartPart) : RequestBody

/-- `Request` from `schema.rs`. -/
structure Request where
  method : String
  url : String
  doc : String
  config : Option RequestConfig
  headers : Option (List (String × String))
  query : Option (List (String × String))
  body : Option RequestBody
  script : Option RequestScriptConfig

/-- `Schema` from `schema.rs`.  The three `HashMap` collections are embedded
as association lists; where the collection is only used through key lookup the
list order is irrelevant, and where the Rust code iterates the `HashMap`
(whose order is unspecified) the theorems below treat the order explicitly. -/
structure Schema where
  filename : String
  imports : List String
  env : List (String × EnvironmentVariable)
  requests : List (String × Request)
  calls : List (String × List String)
  project : Option Project

/-- Which of the three merged collections a name conflict was detected in
(the three distinct `bail!` messages of `Runner::recursively_import`). -/
inductive ConflictKind where
  | envVar
  | request
  | callSequence
deriving DecidableEq

/-- The failure values produced by the embedded executor.  Each constructor
corresponds to one `bail!`/failure site of `runner.rs` (or to a
process-aborting event, see `Outcome`). -/
inductive RunnerError where
  | misplacedProjectDefinition (file : String)
  | nameConflict (kind : ConflictKind) (accFile iFile : String)
  | missingProjectDefinition (file : String)
  | fileOpenFailed (path : String)
  | requestNotFound (name : String)
  | sequenceNotFound (name : String)
  | circularDependency (trace : List String) (name : String)
  | interpolationFailed
  | scriptExecutionError (msg : String)
  | rhaiEngineUnavailable
  | notImplemented
  | assertionFailed
  | nonTermination
deriving DecidableEq

/-- Result of running a piece of the Rust executor: a returned value, a
returned error value (Rust `Err`), or a process abort (`panic!` via
`unwrap()`, `assert_ne!`, `unimplemented!`, or unbounded recursion). -/
inductive Outcome (α : Type) where
  | ok (value : α) : Outcome α
  | err (e : RunnerError) : Outcome α
  | panic (e : RunnerError) : Outcome α

end DotApi

namespace DotApi

/-! ## Interpolation collaborator

`src/core/src/executor/utils.rs` (`interpolate_string`, `interpolate_value`,
`STRICT_INTERPOLATION`) is code of this repository that is not under `src/`.
-/

/-- Scanner state of the template interpreter: outside a reference, after one
opening brace, inside a reference (accumulating its name), after one closing
brace inside a reference. -/
inductive IState where
  | copy : IState
  | sawOpen : IState
  | inRef (acc : List Char) : IState
  | sawClose (acc : List Char) : IState

/-- Modelled from the spec: how a resolved environment value is rendered when
substituted into a template string ("referencing a defined name substitutes
its resolved value exactly"); scalars render in the evident way. -/
def valueToTemplateString (v : YamlValue) : String :=
  match v with
  | .null => "null"
  | .bool b => if b then "true" else "false"
  | .int n => toString n
  | .str s => s
  | .list _ => ""
  | .map _ => ""

/-- Modelled from the spec: the strict-mode template interpreter of the
interpolation collaborator (`interpolateString(template, env, strict)`), whose
lexer is out of the spec's scope; the conventional double-brace reference
syntax is fixed here.  `none` is an `InterpolationError` (undefined variable
reference, or malformed template). -/
def interpStep (env : List (String × YamlValue)) : IState → List Char → Option (List Char)
  | .copy, [] => some []
  | .copy, c :: rest =>
    if c = '{' then interpStep env .sawOpen rest
    else (interpStep env .copy rest).map (fun t => c :: t)
  | .sawOpen, [] => some ['{']
  | .sawOpen, c :: rest =>
    if c = '{' then interpStep env (.inRef []) rest
    else (interpStep env .copy rest).map (fun t => '{' :: c :: t)
  | .inRef _, [] => none
  | .inRef acc, c :: rest =>
    if c = '}' then interpStep env (.sawClose acc) rest
    else interpStep env (.inRef (acc ++ [c])) rest
  | .sawClose _, [] => none
  | .sawClose acc, c :: rest =>
    if c = '}' then
      match alookup env (String.mk acc) with
      | none => none
      | some v => (interpStep env .copy rest).map (fun t => (valueToTemplateString v).data ++ t)
    else interpStep env (.inRef (acc ++ ['}', c])) rest

/-- Modelled from the spec: `interpolate_string(template, env, STRICT_INTERPOLATION)`. -/
def interpolateString (template : String) (env : List (String × YamlValue)) : Option String :=
  (interpStep env .copy template.data).map String.mk

/-- Modelled from the spec: `interpolate_value(value, env)` — recurses through
mappings and sequences, interpolating only string leaves (strict mode). -/
def interpolateValue (v : YamlValue) (env : List (String × YamlValue)) : Option YamlValue :=
  match v with
  | .null => some .null
  | .bool b => some (.bool b)
  | .int n => some (.int n)
  | .str s => (interpolateString s env).map YamlValue.str
  | .list xs => (goList xs).map YamlValue.list
  | .map kvs => (goPairs kvs).map YamlValue.map
where
  goList : List YamlValue → Option (List YamlValue)
    | [] => some []
    | x :: xs =>
      match interpolateValue x env, goList xs with
      | some y, some ys => some (y :: ys)
      | _, _ => none
  goPairs : List (String × YamlValue) → Option (List (String × YamlValue))
    | [] => some []
    | (k, x) :: xs =>
      match interpolateValue x env, goPairs xs with
      | some y, some ys => some ((k, y) :: ys)
      | _, _ => none

/-! ## Environment resolution (`Runner::build_env`, runner.rs lines 169-200) -/

/-- The per-variable value selection of `build_env` (runner.rs lines 174-185):
the override for the current environment if one is selected and present,
otherwise the declared default. -/
def pickValue (environment : Option String) (config : EnvironmentVariable) : YamlValue :=
  match environment with
  | some envName =>
    match alookup config.overrides envName with
    | some overrideValue => overrideValue
    | none => config.default
  | none => config.default

/-- The loop body of `build_env`: fold over the `env` collection in the given
iteration order, interpolating each selected value against the already
resolved portion and inserting it.  The `.unwrap()` on the interpolation
result (runner.rs line 194) aborts the process on interpolation failure,
hence `panic`. -/
def buildEnvGo (environment : Option String) (acc : List (String × YamlValue)) :
    List (String × EnvironmentVariable) → Outcome (List (String × YamlValue))
  | [] => .ok acc
  | (key, config) :: rest =>
    match interpolateValue (pickValue environment config) acc with
    | none => .panic .interpolationFailed
    | some v => buildEnvGo environment (acc ++ [(key, v)]) rest

/-- `Runner::build_env` over an explicit iteration order of the `env`
collection.  The Rust code iterates a `HashMap`, whose order is unspecified;
passing the order as the list order makes that explicit. -/
def buildEnvList (environment : Option String)
    (env : List (String × EnvironmentVariable)) : Outcome (List (String × YamlValue)) :=
  buildEnvGo environment [] env

/-! ## Runner state and script hooks -/

/-- `ScriptEngine` from runner.rs. -/
inductive ScriptEngine where
  | rhai : ScriptEngine
  | none : ScriptEngine

/-- The `Runner` struct: schema, selected environment, the runtime `overrides`
map mutated only by script hooks, and the script engine handle. -/
structure RunnerState where
  schema : Schema
  filename : String
  environment : Option String
  overrides : List (String × YamlValue)
  scriptEngine : ScriptEngine

/-- `Runner::build_env` (runner.rs lines 169-200): resolves `schema.env` for
the runner's selected environment.  Note that the function reads only
`schema.env` and `environment`; the runner's `overrides` field is not
consulted (the `TODO` at runner.rs line 198). -/
def buildEnv (r : RunnerState) : Outcome (List (String × YamlValue)) :=
  buildEnvList r.environment r.schema.env

/-- `Runner::run_request_script` (runner.rs lines 263-273) combined with
`run_rhai_script` (lines 508-520).  `engineRun` is the external Rhai
scripting collaborator (`RhaiScripting::run`, repository code not under
`src/`), which may read and rewrite the overrides map.  The `Javascript` and
`Lua` arms execute `unimplemented!()`, a process abort. -/
def runRequestScript
    (engineRun : String → List (String × YamlValue) → Except String (List (String × YamlValue)))
    (r : RunnerState) (script : Script) : Outcome RunnerState :=
  match script with
  | .rhai content =>
    match r.scriptEngine with
    | .rhai =>
      match engineRun content r.overrides with
      | .ok newOverrides => .ok { r with overrides := newOverrides }
      | .error msg => .err (.scriptExecutionError msg)
    | .none => .err .rhaiEngineUnavailable
  | .javascript _ => .panic .notImplemented
  | .lua _ => .panic .notImplemented

end DotApi

namespace DotApi

/-! ## Schema loading and merging (`Runner::recursively_import`, runner.rs lines 38-120) -/

/-- One collection-extension loop of the merge (runner.rs lines 72-117):
insert every entry of the imported collection into the accumulating one,
failing with a name-conflict error (naming the accumulating file and
the imported file) when the key already exists. -/
def extendColl {α : Type} (kind : ConflictKind) (accFile iFile : String) :
    List (String × α) → List (String × α) → Except RunnerError (List (String × α))
  | acc, [] => .ok acc
  | acc, (key, value) :: rest =>
    if containsKey acc key then .error (.nameConflict kind accFile iFile)
    else extendColl kind accFile iFile (acc ++ [(key, value)]) rest

/-- Merge one imported schema into the accumulating schema: extend `env`,
then `requests`, then `calls` (the order of the three loops in runner.rs). -/
def mergeOne (acc : Schema) (i : Schema) : Except RunnerError Schema :=
  match extendColl .envVar acc.filename i.filename acc.env i.env with
  | .error e => .error e
  | .ok newEnv =>
    match extendColl .request acc.filename i.filename acc.requests i.requests with
    | .error e => .error e
    | .ok newRequests =>
      match extendColl .callSequence acc.filename i.filename acc.calls i.calls with
      | .error e => .error e
      | .ok newCalls => .ok { acc with env := newEnv, requests := newRequests, calls := newCalls }

/-- The merge loop of `recursively_import` (runner.rs lines 72-117): fold the
loaded imports, in import order, into the accumulating root schema. -/
def mergeImports (root : Schema) : List Schema → Except RunnerError Schema
  | [] => .ok root
  | i :: rest =>
    match mergeOne root i with
    | .error e => .error e
    | .ok acc => mergeImports acc rest

/-- `Path::parent` for a `/`-separated path string: drop the last component. -/
def parentDir (p : String) : String :=
  String.mk (((p.data.reverse.dropWhile (fun c => c ≠ '/')).drop 1).reverse)

/-- `rootpath.parent().join(name)` (runner.rs lines 57-61). -/
def resolveImport (rootpath name : String) : String :=
  parentDir rootpath ++ "/" ++ name

/-- `load_api_file` (schema.rs lines 167-180) against an in-memory file
system `fs` mapping paths to parsed schemas: open and parse the file, then
record the path in `filename`.  A missing file is the open/parse failure. -/
def loadApiFile (fs : List (String × Schema)) (path : String) : Except RunnerError Schema :=
  match alookup fs path with
  | none => .error (.fileOpenFailed path)
  | some schema => .ok { schema with filename := path }

/-- The `filter_map` over `schema.imports` (runner.rs lines 53-70): a path
that does not exist is skipped (logged warning only); an existing path is
loaded recursively and the result is `.unwrap()`ed, so a recursive error
becomes a process abort (`panic`), never a returned error. -/
def importEach (fs : List (String × Schema)) (f : String → Outcome Schema) :
    List String → Outcome (List Schema)
  | [] => .ok []
  | p :: rest =>
    if containsKey fs p then
      match f p with
      | .ok schema =>
        match importEach fs f rest with
        | .ok others => .ok (schema :: others)
        | .err e => .err e
        | .panic e => .panic e
      | .err e => .panic e
      | .panic e => .panic e
    else importEach fs f rest

/-- `Runner::recursively_import` (runner.rs lines 38-120).  The function does
not track visited paths, so an import cycle recurses without termination
(the spec's documented gap); the fuel parameter makes that divergence a
`nonTermination` abort in the embedding. -/
def recursivelyImport (fs : List (String × Schema)) : Nat → String → Bool → Outcome Schema
  | 0, _, _ => .panic .nonTermination
  | fuel + 1, rootpath, isRoot =>
    match loadApiFile fs rootpath with
    | .error e => .err e
    | .ok schema =>
      if isRoot = false ∧ schema.project.isSome then
        .err (.misplacedProjectDefinition rootpath)
      else
        match importEach fs (fun p => recursivelyImport fs fuel p false)
            (schema.imports.map (resolveImport rootpath)) with
        | .err e => .err e
        | .panic e => .panic e
        | .ok importedSchemas =>
          match mergeImports schema importedSchemas with
          | .error e => .err e
          | .ok merged => .ok merged

/-! ## Runner construction (`Runner::new`, runner.rs lines 137-166) -/

/-- `str::to_lowercase` as used on the environment name (ASCII-relevant part;
the names compared here are ASCII). -/
def toLowercase (s : String) : String :=
  String.mk (s.data.map Char.toLower)

/-- The `assert_ne!(specified_env.to_lowercase(), "default")` guard at the
top of `Runner::new` (runner.rs lines 143-146): `true` when the assertion
fires (process abort). -/
def environmentAssertViolated (environment : Option String) : Bool :=
  match environment with
  | some specifiedEnv => toLowercase specifiedEnv = "default"
  | none => false

/-- The remainder of `Runner::new` after the assertion: recursive import,
the `as_project` check, and construction of the runner state (the scripting
engine initialization is a no-op). -/
def runnerNewAfterAssert (fs : List (String × Schema)) (fuel : Nat) (filename : String)
    (environment : Option String) (engine : ScriptEngine) (asProject : Bool) :
    Outcome RunnerState :=
  match recursivelyImport fs fuel filename true with
  | .err e => .err e
  | .panic e => .panic e
  | .ok schema =>
    if asProject ∧ schema.project.isNone then .err (.missingProjectDefinition filename)
    else .ok { schema := schema, filename := filename, environment := environment,
               overrides := [], scriptEngine := engine }

/-- `Runner::new` (runner.rs lines 137-166): the environment-name assertion
runs first; only then is any file loaded. -/
def runnerNew (fs : List (String × Schema)) (fuel : Nat) (filename : String)
    (environment : Option String) (engine : ScriptEngine) (asProject : Bool) :
    Outcome RunnerState :=
  if environmentAssertViolated environment then .panic .assertionFailed
  else runnerNewAfterAssert fs fuel filename environment engine asProject

end DotApi

namespace DotApi

/-! ## Dependency graph traversal
(`Runner::traverse_request_stack` and `Runner::generate_call_queue`,
runner.rs lines 419-497) -/

/-- The dependency list of a request (runner.rs lines 482-485). -/
def depsOf (r : Request) : List String :=
  match r.config with
  | some config => config.depends_on
  | none => []

/-- `Runner::traverse_request_stack` (runner.rs lines 448-497), with the
per-request `for dep in dependencies` loop represented by the pending list:
`traverseMany s fuel (n :: siblings) trace` visits `n` (cycle check against
the ancestor trace, request lookup, push `n`, full recursive traversal of its
dependencies with `n` added to the trace) and then continues with the
remaining loop iterations `siblings` at the unchanged trace, concatenating
the collected stacks exactly as `stack.extend` does.  The ancestor
`HashSet` is carried as its insertion-ordered list (membership is what the
code tests; only the error message observes iteration order, treated in C3).
The Rust recursion has no fuel; the fuel parameter is an upper bound on the
recursion depth, and `initialFuel` is proven sufficient below, so
`nonTermination` is unreachable from `generateCallQueue`. -/
def traverseMany (s : Schema) : Nat → List String → List String → Except RunnerError (List String)
  | _, [], _ => .ok []
  | fuel, name :: siblings, trace =>
    if name ∈ trace then .error (.circularDependency trace name)
    else
      match alookup s.requests name with
      | none => .error (.requestNotFound name)
      | some req =>
        match fuel with
        | 0 => .error .nonTermination
        | fuel2 + 1 =>
          match traverseMany s fuel2 (depsOf req) (trace ++ [name]) with
          | .error e => .error e
          | .ok sub =>
            match traverseMany s fuel2 siblings trace with
            | .error e => .error e
            | .ok rest => .ok ((name :: sub) ++ rest)

/-- Length of the longest `depends_on` list in the schema. -/
def maxDepsLen (s : Schema) : Nat :=
  (s.requests.map (fun kv => (depsOf kv.2).length)).foldr max 0

/-- A recursion-depth bound sufficient for `traverseMany` on this schema
(proved adequate below). -/
def initialFuel (s : Schema) : Nat :=
  (s.requests.length + 1) * (maxDepsLen s + 1) + 1

/-- `Runner::traverse_request_stack` entry point for one request name. -/
def traverseRequestStack (s : Schema) (name : String) (trace : List String) :
    Except RunnerError (List String) :=
  traverseMany s (initialFuel s) [name] trace

/-- The dedup filter of `generate_call_queue` (runner.rs lines 421-431):
keep the first occurrence of each name, tracking already-seen names. -/
def dedupKeepFirst (seen : List String) : List String → List String
  | [] => []
  | x :: xs => if x ∈ seen then dedupKeepFirst seen xs else x :: dedupKeepFirst (x :: seen) xs

/-- `Runner::generate_call_queue` (runner.rs lines 419-434): traverse from
the requested name with an empty ancestor set, then reverse the dirty stack
and deduplicate by first occurrence. -/
def generateCallQueue (s : Schema) (name : String) : Except RunnerError (List String) :=
  match traverseRequestStack s name [] with
  | .error e => .error e
  | .ok dirtyStack => .ok (dedupKeepFirst [] dirtyStack.reverse)

/-- `Runner::generate_sequence_queue` (runner.rs lines 436-446): one
independent call queue per member of the named call sequence. -/
def generateSequenceQueue (s : Schema) (name : String) :
    Except RunnerError (List (List String)) :=
  match alookup s.calls name with
  | none => .error (.sequenceNotFound name)
  | some sequence => go sequence
where
  go : List String → Except RunnerError (List (List String))
    | [] => .ok []
    | request :: rest =>
      match generateCallQueue s request, go rest with
      | .ok q, .ok qs => .ok (q :: qs)
      | .error e, _ => .error e
      | _, .error e => .error e

end DotApi

namespace DotApi

/-! ## Basic lemmas about the map embedding -/

theorem containsKey_eq_isSome {α : Type} (l : List (String × α)) (k : String) :
    containsKey l k = (alookup l k).isSome := by
  induction l with
  | nil => rfl
  | cons kv rest ih =>
    obtain ⟨k0, v0⟩ := kv
    by_cases h : k0 = k
    · simp [containsKey, alookup, h]
    · simp [containsKey, alookup, h, ih]

/-! ## Fixtures and theorems for environment resolution (C1, C5, C8) -/

/-- A schema with a single environment variable `x` defaulting to `"d"`. -/
def c1Schema : Schema :=
  { filename := "root.yaml", imports := [],
    env := [("x", { default := .str "d", overrides := [] })],
    requests := [], calls := [], project := none }

/-- A runner over `c1Schema` whose runtime overrides map binds `x` to `"o"`
(as a script hook of an earlier call would). -/
def c1Runner : RunnerState :=
  { schema := c1Schema, filename := "root.yaml", environment := none,
    overrides := [("x", .str "o")], scriptEngine := .none }

/-- C1: the claim says environment resolution at build time incorporates the
runner's mutable `overrides` map, so a value written there by an earlier
call's script hook is seen by a later build.  The code's `build_env` never
reads `overrides` (the `TODO` at runner.rs line 198): the resolved map is
identical for every content of `overrides`, and on the concrete fixture the
schema default `"d"` is produced even though `overrides` binds `x` to `"o"`. -/
theorem c1_build_env_ignores_overrides :
    (∀ (r : RunnerState) (newOverrides : List (String × YamlValue)),
        buildEnv { r with overrides := newOverrides } = buildEnv r)
    ∧ buildEnv c1Runner = .ok [("x", .str "d")]
    ∧ c1Runner.overrides = [("x", .str "o")]
    ∧ YamlValue.str "d" ≠ YamlValue.str "o" := by
  refine ⟨fun r newOverrides => rfl, rfl, rfl, by simp⟩

/-- The spec's effective-value rule, written from the spec's words (§4.2):
"effective value = overrides[selectedEnvironment] if selectedEnvironment is
set and present in that variable's overrides, else default". -/
def specEffectiveValue (selectedEnvironment : Option String)
    (config : EnvironmentVariable) : YamlValue :=
  match selectedEnvironment with
  | some e =>
    if containsKey config.overrides e then (alookup config.overrides e).getD config.default
    else config.default
  | none => config.default

/-- A value whose interpolation is the identity in every environment (no
template references). -/
def RefFree (v : YamlValue) : Prop :=
  ∀ env, interpolateValue v env = some v

theorem buildEnvGo_map (environment : Option String)
    (l : List (String × EnvironmentVariable)) (acc : List (String × YamlValue))
    (h : ∀ kv ∈ l, RefFree (pickValue environment kv.2)) :
    buildEnvGo environment acc l =
      .ok (acc ++ l.map (fun kv => (kv.1, pickValue environment kv.2))) := by
  induction l generalizing acc with
  | nil => simp [buildEnvGo]
  | cons kv rest ih =>
    obtain ⟨key, config⟩ := kv
    have href : RefFree (pickValue environment config) := h (key, config) (by simp)
    simp only [buildEnvGo, href acc]
    rw [ih _ (fun kv2 hkv2 => h kv2 (by simp [hkv2]))]
    simp

/-- The environment variable of the spec's §8 example: `default: "x"`,
override `staging: "y"`. -/
def c5Var : EnvironmentVariable :=
  { default := .str "x", overrides := [("staging", .str "y")] }

/-- C5: the per-variable selection of `build_env` equals the spec's
effective-value rule; for reference-free values the whole resolved map binds
each declared variable to exactly that effective value; and the spec's
concrete example resolves to the override under `staging` and to the default
with no environment selected. -/
theorem c5_effective_value_rule :
    (∀ selection config, pickValue selection config = specEffectiveValue selection config)
    ∧ (∀ selection env, (∀ kv ∈ env, RefFree (pickValue selection kv.2)) →
        buildEnvList selection env =
          .ok (env.map (fun kv => (kv.1, pickValue selection kv.2))))
    ∧ buildEnvList (some "staging") [("v", c5Var)] = .ok [("v", .str "y")]
    ∧ buildEnvList none [("v", c5Var)] = .ok [("v", .str "x")] := by
  refine ⟨fun selection config => ?_, fun selection env h => ?_, rfl, rfl⟩
  · cases selection with
    | none => rfl
    | some e =>
      cases hov : alookup config.overrides e with
      | none => simp [pickValue, specEffectiveValue, containsKey_eq_isSome, hov]
      | some v => simp [pickValue, specEffectiveValue, containsKey_eq_isSome, hov]
  · simpa using buildEnvGo_map selection env [] h

/-- The hypothesis of `c5_effective_value_rule` discharged on the spec's §8
example, and the theorem's conclusion there. -/
theorem c5_effective_value_rule_witness :
    (∀ kv ∈ [("v", c5Var)], RefFree (pickValue (some "staging") kv.2))
    ∧ buildEnvList (some "staging") [("v", c5Var)] =
        .ok ([("v", c5Var)].map (fun kv => (kv.1, pickValue (some "staging") kv.2))) := by
  have h : ∀ kv ∈ [("v", c5Var)], RefFree (pickValue (some "staging") kv.2) := by
    intro kv hkv
    rw [List.mem_singleton] at hkv
    subst hkv
    intro env
    rfl
  exact ⟨h, c5_effective_value_rule.2.1 (some "staging") [("v", c5Var)] h⟩

end DotApi

namespace DotApi

/-- The declaration order `a` before `b`, where `b`'s default references `a`. -/
def c8EnvAB : List (String × EnvironmentVariable) :=
  [("a", { default := .str "1", overrides := [] }),
   ("b", { default := .str "\x7b\x7ba\x7d\x7d", overrides := [] })]

/-- The same two variable entries in the opposite iteration order, as the
unordered `HashMap` backing `schema.env` is free to produce. -/
def c8EnvBA : List (String × EnvironmentVariable) :=
  [("b", { default := .str "\x7b\x7ba\x7d\x7d", overrides := [] }),
   ("a", { default := .str "1", overrides := [] })]

/-- C8: the claim requires environment resolution to be deterministic and
dependency-ordered.  `build_env` iterates `schema.env`, a `HashMap` with
unspecified iteration order; over the same variable set (a permutation) the
two possible orders produce different results — declaration order resolves
`b` to `"1"`, while iterating `b` first interpolates its reference to `a`
against a map that does not contain `a` yet, and the `.unwrap()` at
runner.rs line 194 aborts the process. -/
theorem c8_build_env_is_order_sensitive :
    List.Perm c8EnvBA c8EnvAB
    ∧ buildEnvList none c8EnvAB = .ok [("a", .str "1"), ("b", .str "1")]
    ∧ buildEnvList none c8EnvBA = .panic .interpolationFailed
    ∧ buildEnvList none c8EnvAB ≠ buildEnvList none c8EnvBA := by
  refine ⟨List.Perm.swap _ _ _, rfl, rfl, fun h => ?_⟩
  exact Outcome.noConfusion h

/-! ## Script hooks (C4) -/

/-- C4: for the `javascript` and `lua` script-language tags,
`run_request_script` executes `unimplemented!()` (runner.rs lines 270-271),
a process abort: the result is a panic, never a returned error value and
never a successor runner state (in particular `overrides` is never
rewritten). -/
theorem c4_js_lua_hooks_abort_process :
    ∀ engineRun (r : RunnerState) (content : String),
      runRequestScript engineRun r (.javascript content) = .panic .notImplemented
      ∧ runRequestScript engineRun r (.lua content) = .panic .notImplemented
      ∧ (∀ e, runRequestScript engineRun r (.javascript content) ≠ .err e)
      ∧ (∀ e, runRequestScript engineRun r (.lua content) ≠ .err e)
      ∧ (∀ r2, runRequestScript engineRun r (.javascript content) ≠ .ok r2)
      ∧ (∀ r2, runRequestScript engineRun r (.lua content) ≠ .ok r2) := by
  intro engineRun r content
  exact ⟨rfl, rfl, fun e h => Outcome.noConfusion h, fun e h => Outcome.noConfusion h,
    fun r2 h => Outcome.noConfusion h, fun r2 h => Outcome.noConfusion h⟩

/-! ## Runner construction (C10) -/

/-- C10: `Runner::new` asserts that the selected environment name is not
`"default"` in any letter case, before any file is loaded: whenever the
lowercased selection equals `"default"` the construction is the assertion
abort, for every file system, fuel, filename and flag (so no file access can
have happened); for every other selection the assertion passes and the
construction proceeds to the import stage. -/
theorem c10_runner_new_rejects_default_environment :
    (∀ fs fuel filename e engine asProject, toLowercase e = "default" →
        runnerNew fs fuel filename (some e) engine asProject = .panic .assertionFailed)
    ∧ (∀ fs fuel filename environment engine asProject,
        environmentAssertViolated environment = false →
        runnerNew fs fuel filename environment engine asProject =
          runnerNewAfterAssert fs fuel filename environment engine asProject)
    ∧ (∀ e, environmentAssertViolated (some e) = true ↔ toLowercase e = "default")
    ∧ environmentAssertViolated none = false := by
  refine ⟨fun fs fuel filename e engine asProject h => ?_,
    fun fs fuel filename environment engine asProject h => ?_,
    fun e => ?_, rfl⟩
  · simp [runnerNew, environmentAssertViolated, h]
  · simp [runnerNew, h]
  · simp [environmentAssertViolated]

/-- The hypotheses of `c10_runner_new_rejects_default_environment`
discharged at concrete inputs: mixed-case `"DeFault"` aborts construction,
`"staging"` passes the assertion. -/
theorem c10_runner_new_rejects_default_environment_witness :
    toLowercase "DeFault" = "default"
    ∧ runnerNew [] 1 "api.yaml" (some "DeFault") .none false = .panic .assertionFailed
    ∧ environmentAssertViolated (some "staging") = false
    ∧ runnerNew [] 1 "api.yaml" (some "staging") .none false =
        runnerNewAfterAssert [] 1 "api.yaml" (some "staging") .none false := by
  refine ⟨by decide, ?_, by decide, ?_⟩
  · exact c10_runner_new_rejects_default_environment.1 [] 1 "api.yaml" "DeFault" .none false
      (by decide)
  · exact c10_runner_new_rejects_default_environment.2.1 [] 1 "api.yaml" (some "staging") .none
      false (by decide)

end DotApi

namespace DotApi

/-! ## List lemmas for the call-queue analysis -/

theorem alookup_eq_some_mem {α : Type} :
    ∀ (l : List (String × α)) (k : String) (v : α), alookup l k = some v → (k, v) ∈ l := by
  intro l
  induction l with
  | nil => intro k v h; exact Option.noConfusion h
  | cons kv rest ih =>
    intro k v h
    obtain ⟨k0, v0⟩ := kv
    by_cases hk : k0 = k
    · subst hk
      simp only [alookup, if_pos rfl] at h
      obtain rfl : v0 = v := Option.some.inj h
      exact List.mem_cons_self _ _
    · simp only [alookup, if_neg hk] at h
      exact List.mem_cons_of_mem _ (ih k v h)

theorem alookup_some_key_mem_keys {α : Type} (l : List (String × α)) (k : String) (v : α)
    (h : alookup l k = some v) : k ∈ l.map Prod.fst := by
  have := alookup_eq_some_mem l k v h
  exact List.mem_map_of_mem Prod.fst this

/-- The suffix of `l` strictly after the last occurrence of `u` (empty when
`u` does not occur). -/
def afterLast (u : String) : List String → List String
  | [] => []
  | x :: xs => if x = u ∧ u ∉ xs then xs else afterLast u xs

theorem afterLast_subset (u : String) :
    ∀ l : List String, ∀ v ∈ afterLast u l, v ∈ l := by
  intro l
  induction l with
  | nil => intro v hv; exact absurd hv (List.not_mem_nil v)
  | cons x xs ih =>
    intro v hv
    by_cases h : x = u ∧ u ∉ xs
    · rw [afterLast, if_pos h] at hv
      exact List.mem_cons_of_mem _ hv
    · rw [afterLast, if_neg h] at hv
      exact List.mem_cons_of_mem _ (ih v hv)

theorem afterLast_append_right (u : String) (l1 l2 : List String) (h : u ∈ l2) :
    afterLast u (l1 ++ l2) = afterLast u l2 := by
  induction l1 with
  | nil => rfl
  | cons x xs ih =>
    have hmem : u ∈ xs ++ l2 := List.mem_append_right xs h
    rw [List.cons_append, afterLast, if_neg (by intro hc; exact hc.2 hmem), ih]

theorem afterLast_append_left (u : String) (l1 l2 : List String)
    (h2 : u ∉ l2) (h1 : u ∈ l1) :
    afterLast u (l1 ++ l2) = afterLast u l1 ++ l2 := by
  induction l1 with
  | nil => exact absurd h1 (List.not_mem_nil u)
  | cons x xs ih =>
    by_cases hx : x = u ∧ u ∉ xs
    · have hnotin : u ∉ xs ++ l2 := by
        intro hc
        rcases List.mem_append.1 hc with hc | hc
        · exact hx.2 hc
        · exact h2 hc
      rw [List.cons_append, afterLast, if_pos ⟨hx.1, hnotin⟩, afterLast, if_pos hx]
    · have hxs : u ∈ xs := by
        rcases List.mem_cons.1 h1 with rfl | hmem
        · by_contra hin
          exact hx ⟨rfl, hin⟩
        · exact hmem
      have hmm : u ∈ xs ++ l2 := List.mem_append_left l2 hxs
      rw [List.cons_append, afterLast, if_neg ?_, afterLast, if_neg hx, ih hxs]
      intro hc
      exact hc.2 hmm

theorem afterLast_cons_ne (u x : String) (xs : List String) (h : x ≠ u) :
    afterLast u (x :: xs) = afterLast u xs := by
  rw [afterLast, if_neg (fun hc => h hc.1)]

theorem afterLast_cons_self (u : String) (xs : List String) (h : u ∉ xs) :
    afterLast u (u :: xs) = xs := by
  rw [afterLast, if_pos ⟨rfl, h⟩]

theorem afterLast_decomp (u : String) :
    ∀ l : List String, u ∈ l → ∀ v ∈ afterLast u l,
      ∃ l1 l2, l = l1 ++ u :: l2 ∧ u ∉ l2 ∧ v ∈ l2 := by
  intro l
  induction l with
  | nil => intro h; exact absurd h (List.not_mem_nil u)
  | cons x xs ih =>
    intro hmem v hv
    by_cases hx : x = u ∧ u ∉ xs
    · rw [afterLast, if_pos hx] at hv
      exact ⟨[], xs, by rw [hx.1]; rfl, hx.2, hv⟩
    · rw [afterLast, if_neg hx] at hv
      have hxs : u ∈ xs := by
        rcases List.mem_cons.1 hmem with rfl | hmem2
        · by_cases hin : u ∈ xs
          · exact hin
          · exact absurd ⟨rfl, hin⟩ hx
        · exact hmem2
      obtain ⟨l1, l2, heq, hnot, hvin⟩ := ih hxs v hv
      exact ⟨x :: l1, l2, by rw [heq]; rfl, hnot, hvin⟩

end DotApi

namespace DotApi

/-! ## Lemmas about the dedup filter of `generate_call_queue` -/

theorem mem_dedupKeepFirst :
    ∀ (l seen : List String) (x : String),
      x ∈ dedupKeepFirst seen l ↔ x ∈ l ∧ x ∉ seen := by
  intro l
  induction l with
  | nil => intro seen x; simp [dedupKeepFirst]
  | cons y ys ih =>
    intro seen x
    by_cases hy : y ∈ seen
    · rw [dedupKeepFirst, if_pos hy, ih]
      constructor
      · rintro ⟨hx, hns⟩
        exact ⟨List.mem_cons_of_mem _ hx, hns⟩
      · rintro ⟨hx, hns⟩
        rcases List.mem_cons.1 hx with rfl | hx2
        · exact absurd hy hns
        · exact ⟨hx2, hns⟩
    · rw [dedupKeepFirst, if_neg hy]
      constructor
      · intro hx
        rcases List.mem_cons.1 hx with rfl | hx2
        · exact ⟨List.mem_cons_self _ _, hy⟩
        · have := (ih (y :: seen) x).1 hx2
          exact ⟨List.mem_cons_of_mem _ this.1, fun hc => this.2 (List.mem_cons_of_mem _ hc)⟩
      · rintro ⟨hx, hns⟩
        rcases List.mem_cons.1 hx with rfl | hx2
        · exact List.mem_cons_self _ _
        · by_cases hxy : x = y
          · subst hxy; exact List.mem_cons_self _ _
          · refine List.mem_cons_of_mem _ ((ih (y :: seen) x).2 ⟨hx2, ?_⟩)
            intro hc
            rcases List.mem_cons.1 hc with h1 | h1
            · exact hxy h1
            · exact hns h1

theorem nodup_dedupKeepFirst :
    ∀ (l seen : List String), (dedupKeepFirst seen l).Nodup := by
  intro l
  induction l with
  | nil => intro seen; exact List.nodup_nil
  | cons y ys ih =>
    intro seen
    by_cases hy : y ∈ seen
    · rw [dedupKeepFirst, if_pos hy]; exact ih seen
    · rw [dedupKeepFirst, if_neg hy]
      refine List.nodup_cons.2 ⟨?_, ih (y :: seen)⟩
      intro hc
      exact ((mem_dedupKeepFirst ys (y :: seen) y).1 hc).2 (List.mem_cons_self _ _)

theorem dedupKeepFirst_append_singleton :
    ∀ (xs seen : List String) (u : String), u ∉ seen → u ∉ xs →
      dedupKeepFirst seen (xs ++ [u]) = dedupKeepFirst seen xs ++ [u] := by
  intro xs
  induction xs with
  | nil =>
    intro seen u hs _
    simp [dedupKeepFirst, hs]
  | cons y ys ih =>
    intro seen u hs hxs
    have hyu : u ≠ y := fun hc => hxs (hc ▸ List.mem_cons_self _ _)
    have hu_ys : u ∉ ys := fun hc => hxs (List.mem_cons_of_mem _ hc)
    by_cases hy : y ∈ seen
    · rw [List.cons_append, dedupKeepFirst, if_pos hy, dedupKeepFirst, if_pos hy, ih seen u hs hu_ys]
    · rw [List.cons_append, dedupKeepFirst, if_neg hy, dedupKeepFirst, if_neg hy,
        ih (y :: seen) u (by simp [hyu, hs]) hu_ys]
      rfl

theorem dedupKeepFirst_before :
    ∀ (m1 seen : List String) (u : String) (m2 : List String) (v : String),
      u ∉ seen → u ∉ m1 → v ∈ m1 → v ∉ seen →
      ∃ q1 q2, dedupKeepFirst seen (m1 ++ u :: m2) = q1 ++ v :: q2 ∧ u ∈ q2 := by
  intro m1
  induction m1 with
  | nil =>
    intro seen u m2 v _ _ hv _
    exact absurd hv (List.not_mem_nil v)
  | cons x xs ih =>
    intro seen u m2 v hus hum1 hv hvs
    have hux : u ≠ x := fun hc => hum1 (hc ▸ List.mem_cons_self _ _)
    have huxs : u ∉ xs := fun hc => hum1 (List.mem_cons_of_mem _ hc)
    by_cases hvx : v = x
    · subst hvx
      rw [List.cons_append, dedupKeepFirst, if_neg hvs]
      refine ⟨[], dedupKeepFirst (v :: seen) (xs ++ u :: m2), rfl, ?_⟩
      refine (mem_dedupKeepFirst _ _ _).2 ⟨List.mem_append_right xs (List.mem_cons_self _ _), ?_⟩
      intro hc
      rcases List.mem_cons.1 hc with h1 | h1
      · exact hux h1
      · exact hus h1
    · have hv_xs : v ∈ xs := by
        rcases List.mem_cons.1 hv with h1 | h1
        · exact absurd h1 hvx
        · exact h1
      by_cases hx : x ∈ seen
      · rw [List.cons_append, dedupKeepFirst, if_pos hx]
        exact ih seen u m2 v hus huxs hv_xs hvs
      · rw [List.cons_append, dedupKeepFirst, if_neg hx]
        obtain ⟨q1, q2, heq, huq⟩ := ih (x :: seen) u m2 v
          (by simp [hux, hus]) huxs hv_xs (by simp [hvx, hvs])
        exact ⟨x :: q1, q2, by rw [heq]; rfl, huq⟩

theorem indexOf_append_not_mem {α : Type} [DecidableEq α] :
    ∀ (l1 l2 : List α) (a : α), a ∉ l1 →
      (l1 ++ l2).indexOf a = l1.length + l2.indexOf a := by
  intro l1
  induction l1 with
  | nil => intro l2 a _; simp
  | cons x xs ih =>
    intro l2 a ha
    have hax : x ≠ a := fun hc => ha (hc ▸ List.mem_cons_self _ _)
    have haxs : a ∉ xs := fun hc => ha (List.mem_cons_of_mem _ hc)
    rw [List.cons_append, List.indexOf_cons_ne _ hax, ih l2 a haxs]
    simp [Nat.succ_add]

theorem indexOf_lt_of_decomp (q1 : List String) (v : String) (q2 : List String) (u : String)
    (hnd : (q1 ++ v :: q2).Nodup) (hu : u ∈ q2) :
    (q1 ++ v :: q2).indexOf v < (q1 ++ v :: q2).indexOf u := by
  have hsplit := List.nodup_append.1 hnd
  have hv_q1 : v ∉ q1 := fun hc => hsplit.2.2 hc (List.mem_cons_self _ _)
  have hu_q1 : u ∉ q1 := fun hc => hsplit.2.2 hc (List.mem_cons_of_mem _ hu)
  have huv : v ≠ u := by
    have := List.nodup_cons.1 hsplit.2.1
    intro hc
    exact this.1 (hc ▸ hu)
  rw [indexOf_append_not_mem q1 (v :: q2) v hv_q1, indexOf_append_not_mem q1 (v :: q2) u hu_q1,
    List.indexOf_cons_self, List.indexOf_cons_ne _ huv]
  omega

end DotApi

namespace DotApi

/-! ## Structural lemmas about the dependency traversal -/

/-- The direct dependency edge of the schema graph: `u`'s request declares
`v` in its `depends_on` list. -/
def dependsOnDirectly (s : Schema) (u v : String) : Prop :=
  ∃ r, alookup s.requests u = some r ∧ v ∈ depsOf r

theorem traverseMany_nil (s : Schema) (fuel : Nat) (trace : List String) :
    traverseMany s fuel [] trace = .ok [] := by
  cases fuel <;> rfl

theorem traverseMany_nil_ok (s : Schema) (fuel : Nat) (trace l : List String)
    (h : traverseMany s fuel [] trace = .ok l) : l = [] := by
  rw [traverseMany_nil] at h
  exact (Except.ok.inj h).symm

theorem traverseMany_zero_cons (s : Schema) (name : String) (siblings trace : List String) :
    ∀ l, traverseMany s 0 (name :: siblings) trace ≠ .ok l := by
  intro l h
  by_cases hmem : name ∈ trace
  · simp [traverseMany, hmem] at h
  · cases hreq : alookup s.requests name with
    | none => simp [traverseMany, hmem, hreq] at h
    | some req => simp [traverseMany, hmem, hreq] at h

theorem traverseMany_cons_ok (s : Schema) (fuel : Nat) (name : String)
    (siblings trace l : List String)
    (h : traverseMany s (fuel + 1) (name :: siblings) trace = .ok l) :
    name ∉ trace ∧ ∃ req sub rest,
      alookup s.requests name = some req
      ∧ traverseMany s fuel (depsOf req) (trace ++ [name]) = .ok sub
      ∧ traverseMany s fuel siblings trace = .ok rest
      ∧ l = (name :: sub) ++ rest := by
  by_cases hmem : name ∈ trace
  · simp [traverseMany, hmem] at h
  · cases hreq : alookup s.requests name with
    | none => simp [traverseMany, hmem, hreq] at h
    | some req =>
      cases hsub : traverseMany s fuel (depsOf req) (trace ++ [name]) with
      | error e => simp [traverseMany, hmem, hreq, hsub] at h
      | ok sub =>
        cases hrest : traverseMany s fuel siblings trace with
        | error e => simp [traverseMany, hmem, hreq, hsub, hrest] at h
        | ok rest =>
          simp only [traverseMany, hmem, hreq, hsub, hrest, if_neg hmem] at h
          exact ⟨hmem, req, sub, rest, rfl, hsub, rfl, (Except.ok.inj h).symm⟩

theorem traverseMany_ok_fresh (s : Schema) :
    ∀ fuel pending trace l, traverseMany s fuel pending trace = .ok l →
      ∀ x ∈ l, x ∉ trace := by
  intro fuel
  induction fuel with
  | zero =>
    intro pending trace l h x hx
    cases pending with
    | nil =>
      obtain rfl := traverseMany_nil_ok s 0 trace l h
      exact absurd hx (List.not_mem_nil x)
    | cons n sib => exact absurd h (traverseMany_zero_cons s n sib trace l)
  | succ fuel ih =>
    intro pending trace l h x hx
    cases pending with
    | nil =>
      obtain rfl := traverseMany_nil_ok s _ trace l h
      exact absurd hx (List.not_mem_nil x)
    | cons name siblings =>
      obtain ⟨hmem, req, sub, rest, hreq, hsub, hrest, rfl⟩ :=
        traverseMany_cons_ok s fuel name siblings trace l h
      rcases List.mem_append.1 hx with hx1 | hx2
      · rcases List.mem_cons.1 hx1 with rfl | hx3
        · exact hmem
        · intro hc
          exact ih (depsOf req) (trace ++ [name]) sub hsub x hx3 (List.mem_append_left _ hc)
      · exact ih siblings trace rest hrest x hx2

theorem traverseMany_ok_covers (s : Schema) :
    ∀ fuel pending trace l, traverseMany s fuel pending trace = .ok l →
      ∀ n ∈ pending, n ∈ l := by
  intro fuel
  induction fuel with
  | zero =>
    intro pending trace l h n hn
    cases pending with
    | nil => exact absurd hn (List.not_mem_nil n)
    | cons m sib => exact absurd h (traverseMany_zero_cons s m sib trace l)
  | succ fuel ih =>
    intro pending trace l h n hn
    cases pending with
    | nil => exact absurd hn (List.not_mem_nil n)
    | cons name siblings =>
      obtain ⟨hmem, req, sub, rest, hreq, hsub, hrest, rfl⟩ :=
        traverseMany_cons_ok s fuel name siblings trace l h
      rcases List.mem_cons.1 hn with rfl | hn2
      · exact List.mem_append_left _ (List.mem_cons_self _ _)
      · exact List.mem_append_right _ (ih siblings trace rest hrest n hn2)

theorem traverseMany_ok_member_found (s : Schema) :
    ∀ fuel pending trace l, traverseMany s fuel pending trace = .ok l →
      ∀ x ∈ l, ∃ r, alookup s.requests x = some r := by
  intro fuel
  induction fuel with
  | zero =>
    intro pending trace l h x hx
    cases pending with
    | nil =>
      obtain rfl := traverseMany_nil_ok s 0 trace l h
      exact absurd hx (List.not_mem_nil x)
    | cons m sib => exact absurd h (traverseMany_zero_cons s m sib trace l)
  | succ fuel ih =>
    intro pending trace l h x hx
    cases pending with
    | nil =>
      obtain rfl := traverseMany_nil_ok s _ trace l h
      exact absurd hx (List.not_mem_nil x)
    | cons name siblings =>
      obtain ⟨hmem, req, sub, rest, hreq, hsub, hrest, rfl⟩ :=
        traverseMany_cons_ok s fuel name siblings trace l h
      rcases List.mem_append.1 hx with hx1 | hx2
      · rcases List.mem_cons.1 hx1 with rfl | hx3
        · exact ⟨req, hreq⟩
        · exact ih (depsOf req) (trace ++ [name]) sub hsub x hx3
      · exact ih siblings trace rest hrest x hx2

theorem traverseMany_ok_reachable (s : Schema) :
    ∀ fuel pending trace l, traverseMany s fuel pending trace = .ok l →
      ∀ x ∈ l, ∃ n ∈ pending, Relation.ReflTransGen (dependsOnDirectly s) n x := by
  intro fuel
  induction fuel with
  | zero =>
    intro pending trace l h x hx
    cases pending with
    | nil =>
      obtain rfl := traverseMany_nil_ok s 0 trace l h
      exact absurd hx (List.not_mem_nil x)
    | cons m sib => exact absurd h (traverseMany_zero_cons s m sib trace l)
  | succ fuel ih =>
    intro pending trace l h x hx
    cases pending with
    | nil =>
      obtain rfl := traverseMany_nil_ok s _ trace l h
      exact absurd hx (List.not_mem_nil x)
    | cons name siblings =>
      obtain ⟨hmem, req, sub, rest, hreq, hsub, hrest, rfl⟩ :=
        traverseMany_cons_ok s fuel name siblings trace l h
      rcases List.mem_append.1 hx with hx1 | hx2
      · rcases List.mem_cons.1 hx1 with rfl | hx3
        · exact ⟨x, List.mem_cons_self _ _, Relation.ReflTransGen.refl⟩
        · obtain ⟨d, hd, hreach⟩ := ih (depsOf req) (trace ++ [name]) sub hsub x hx3
          refine ⟨name, List.mem_cons_self _ _, Relation.ReflTransGen.head ⟨req, hreq, hd⟩ hreach⟩
      · obtain ⟨n, hn, hreach⟩ := ih siblings trace rest hrest x hx2
        exact ⟨n, List.mem_cons_of_mem _ hn, hreach⟩

end DotApi

namespace DotApi

/-- Key ordering invariant of the raw traversal stack: every declared
dependency `v` of a stack member `u` occurs strictly after the last
occurrence of `u` in the stack. -/
def DepsAfterLast (s : Schema) (l : List String) : Prop :=
  ∀ u r v, alookup s.requests u = some r → v ∈ depsOf r → u ∈ l → v ∈ afterLast u l

theorem traverseMany_ok_depsAfterLast (s : Schema) :
    ∀ fuel pending trace l, traverseMany s fuel pending trace = .ok l →
      DepsAfterLast s l := by
  intro fuel
  induction fuel with
  | zero =>
    intro pending trace l h u r v hr hv hu
    cases pending with
    | nil =>
      obtain rfl := traverseMany_nil_ok s 0 trace l h
      exact absurd hu (List.not_mem_nil u)
    | cons m sib => exact absurd h (traverseMany_zero_cons s m sib trace l)
  | succ fuel ih =>
    intro pending trace l h u r v hr hv hu
    cases pending with
    | nil =>
      obtain rfl := traverseMany_nil_ok s _ trace l h
      exact absurd hu (List.not_mem_nil u)
    | cons name siblings =>
      obtain ⟨hmem, req, sub, rest, hreq, hsub, hrest, rfl⟩ :=
        traverseMany_cons_ok s fuel name siblings trace l h
      by_cases hurest : u ∈ rest
      · rw [afterLast_append_right u (name :: sub) rest hurest]
        exact ih siblings trace rest hrest u r v hr hv hurest
      · have hu1 : u ∈ name :: sub := by
          rcases List.mem_append.1 hu with h1 | h2
          · exact h1
          · exact absurd h2 hurest
        rw [afterLast_append_left u (name :: sub) rest hurest hu1]
        rcases List.mem_cons.1 hu1 with rfl | husub
        · have hname_sub : u ∉ sub := fun hc =>
            traverseMany_ok_fresh s fuel (depsOf req) (trace ++ [u]) sub hsub u hc
              (List.mem_append_right _ (List.mem_cons_self _ _))
          rw [afterLast_cons_self u sub hname_sub]
          obtain rfl : req = r := by
            rw [hreq] at hr
            exact Option.some.inj hr
          exact List.mem_append_left rest
            (traverseMany_ok_covers s fuel (depsOf req) (trace ++ [u]) sub hsub v hv)
        · have hune : name ≠ u := by
            intro hc
            subst hc
            exact traverseMany_ok_fresh s fuel (depsOf req) (trace ++ [name]) sub hsub name husub
              (List.mem_append_right _ (List.mem_cons_self _ _))
          rw [afterLast_cons_ne u name sub hune]
          exact List.mem_append_left rest
            (ih (depsOf req) (trace ++ [name]) sub hsub u r v hr hv husub)

theorem traverseMany_error_cases (s : Schema) :
    ∀ fuel pending trace e, traverseMany s fuel pending trace = .error e →
      e = .nonTermination
      ∨ (∃ t n, e = .circularDependency t n ∧ n ∈ t)
      ∨ (∃ n, e = .requestNotFound n ∧ alookup s.requests n = none) := by
  intro fuel
  induction fuel with
  | zero =>
    intro pending trace e h
    cases pending with
    | nil =>
      rw [traverseMany_nil] at h
      exact Except.noConfusion h
    | cons name siblings =>
      by_cases hmem : name ∈ trace
      · simp only [traverseMany, hmem, if_true] at h
        obtain rfl := (Except.error.inj h).symm
        exact Or.inr (Or.inl ⟨trace, name, rfl, hmem⟩)
      · cases hreq : alookup s.requests name with
        | none =>
          simp only [traverseMany, hmem, if_false, hreq] at h
          obtain rfl := (Except.error.inj h).symm
          exact Or.inr (Or.inr ⟨name, rfl, hreq⟩)
        | some req =>
          simp only [traverseMany, hmem, if_false, hreq] at h
          obtain rfl := (Except.error.inj h).symm
          exact Or.inl rfl
  | succ fuel ih =>
    intro pending trace e h
    cases pending with
    | nil =>
      rw [traverseMany_nil] at h
      exact Except.noConfusion h
    | cons name siblings =>
      by_cases hmem : name ∈ trace
      · simp only [traverseMany, hmem, if_true] at h
        obtain rfl := (Except.error.inj h).symm
        exact Or.inr (Or.inl ⟨trace, name, rfl, hmem⟩)
      · cases hreq : alookup s.requests name with
        | none =>
          simp only [traverseMany, hmem, if_false, hreq] at h
          obtain rfl := (Except.error.inj h).symm
          exact Or.inr (Or.inr ⟨name, rfl, hreq⟩)
        | some req =>
          cases hsub : traverseMany s fuel (depsOf req) (trace ++ [name]) with
          | error e2 =>
            simp only [traverseMany, hmem, if_false, hreq, hsub] at h
            obtain rfl := (Except.error.inj h).symm
            exact ih (depsOf req) (trace ++ [name]) e hsub
          | ok sub =>
            cases hrest : traverseMany s fuel siblings trace with
            | error e2 =>
              simp only [traverseMany, hmem, if_false, hreq, hsub, hrest] at h
              obtain rfl := (Except.error.inj h).symm
              exact ih siblings trace e hrest
            | ok rest =>
              simp only [traverseMany, hmem, if_false, hreq, hsub, hrest] at h
              exact Except.noConfusion h

end DotApi

namespace DotApi

/-! ## Fuel adequacy and success of the traversal -/

/-- The set of request names declared in the schema. -/
def requestKeys (s : Schema) : Finset String := (s.requests.map Prod.fst).toFinset

theorem le_foldr_max (x : Nat) :
    ∀ xs : List Nat, x ∈ xs → x ≤ xs.foldr max 0 := by
  intro xs
  induction xs with
  | nil => intro h; exact absurd h (List.not_mem_nil x)
  | cons y ys ih =>
    intro h
    rcases List.mem_cons.1 h with rfl | h2
    · exact le_max_left _ _
    · exact le_trans (ih h2) (le_max_right _ _)

theorem depsLen_le_maxDepsLen (s : Schema) (name : String) (req : Request)
    (h : alookup s.requests name = some req) : (depsOf req).length ≤ maxDepsLen s := by
  have hmem := alookup_eq_some_mem s.requests name req h
  exact le_foldr_max _ _ (List.mem_map_of_mem (fun kv => (depsOf kv.2).length) hmem)

theorem toFinset_append_singleton (trace : List String) (name : String) :
    (trace ++ [name]).toFinset = insert name trace.toFinset := by
  ext a
  simp [or_comm]

theorem card_sdiff_append_lt (s : Schema) (trace : List String) (name : String)
    (hkey : name ∈ s.requests.map Prod.fst) (hmem : name ∉ trace) :
    (requestKeys s \ (trace ++ [name]).toFinset).card <
      (requestKeys s \ trace.toFinset).card := by
  rw [toFinset_append_singleton, Finset.sdiff_insert]
  refine Finset.card_erase_lt_of_mem ?_
  rw [Finset.mem_sdiff]
  exact ⟨List.mem_toFinset.2 hkey, fun hc => hmem (List.mem_toFinset.1 hc)⟩

theorem suf_deps (card card2 M fuel lenDeps lenSiblings : Nat)
    (hfuel : (card + 1) * (M + 1) + (lenSiblings + 1) ≤ fuel + 1)
    (hlt : card2 < card) (hdeps : lenDeps ≤ M) :
    (card2 + 1) * (M + 1) + lenDeps ≤ fuel := by
  have k1 : (card2 + 1) * (M + 1) ≤ card * (M + 1) := Nat.mul_le_mul_right _ hlt
  have k2 : (card + 1) * (M + 1) = card * (M + 1) + (M + 1) := Nat.succ_mul card (M + 1)
  linarith

theorem suf_siblings (c fuel lenSiblings : Nat)
    (hfuel : c + (lenSiblings + 1) ≤ fuel + 1) : c + lenSiblings ≤ fuel := by
  omega

theorem traverseMany_ne_nonTermination (s : Schema) :
    ∀ fuel pending trace,
      ((requestKeys s \ trace.toFinset).card + 1) * (maxDepsLen s + 1) + pending.length ≤ fuel →
      traverseMany s fuel pending trace ≠ .error .nonTermination := by
  intro fuel
  induction fuel with
  | zero =>
    intro pending trace hfuel h
    have hpos : 0 < ((requestKeys s \ trace.toFinset).card + 1) * (maxDepsLen s + 1) :=
      Nat.mul_pos (Nat.succ_pos _) (Nat.succ_pos _)
    have hle : ((requestKeys s \ trace.toFinset).card + 1) * (maxDepsLen s + 1) ≤ 0 :=
      le_trans (Nat.le_add_right _ _) hfuel
    exact absurd hle (Nat.not_le.2 hpos)
  | succ fuel ih =>
    intro pending trace hfuel h
    cases pending with
    | nil =>
      rw [traverseMany_nil] at h
      exact Except.noConfusion h
    | cons name siblings =>
      by_cases hmem : name ∈ trace
      · simp only [traverseMany, hmem, if_true] at h
        exact RunnerError.noConfusion (Except.error.inj h)
      · cases hreq : alookup s.requests name with
        | none =>
          simp only [traverseMany, hmem, if_false, hreq] at h
          exact RunnerError.noConfusion (Except.error.inj h)
        | some req =>
          cases hsub : traverseMany s fuel (depsOf req) (trace ++ [name]) with
          | error e2 =>
            simp only [traverseMany, hmem, if_false, hreq, hsub] at h
            obtain rfl := Except.error.inj h
            refine ih (depsOf req) (trace ++ [name]) ?_ hsub
            have hkey : name ∈ s.requests.map Prod.fst :=
              alookup_some_key_mem_keys s.requests name req hreq
            have hlt := card_sdiff_append_lt s trace name hkey hmem
            have hdeps := depsLen_le_maxDepsLen s name req hreq
            exact suf_deps _ _ _ _ _ siblings.length (by simpa using hfuel) hlt hdeps
          | ok sub =>
            cases hrest : traverseMany s fuel siblings trace with
            | error e2 =>
              simp only [traverseMany, hmem, if_false, hreq, hsub, hrest] at h
              obtain rfl := Except.error.inj h
              refine ih siblings trace ?_ hrest
              exact suf_siblings _ _ _ (by simpa using hfuel)
            | ok rest =>
              simp only [traverseMany, hmem, if_false, hreq, hsub, hrest] at h
              exact Except.noConfusion h

/-- The graph of the schema has no dangling `depends_on` references. -/
def ClosedSchema (s : Schema) : Prop :=
  ∀ u r, alookup s.requests u = some r → ∀ v ∈ depsOf r, ∃ r2, alookup s.requests v = some r2

/-- No request transitively depends on itself. -/
def AcyclicSchema (s : Schema) : Prop :=
  ∀ u, ¬ Relation.TransGen (dependsOnDirectly s) u u

theorem traverseMany_no_notFound (s : Schema) (hClosed : ClosedSchema s) :
    ∀ fuel pending trace,
      (∀ n ∈ pending, ∃ r, alookup s.requests n = some r) →
      ∀ m, traverseMany s fuel pending trace ≠ .error (.requestNotFound m) := by
  intro fuel
  induction fuel with
  | zero =>
    intro pending trace hpres m h
    cases pending with
    | nil =>
      rw [traverseMany_nil] at h
      exact Except.noConfusion h
    | cons name siblings =>
      by_cases hmem : name ∈ trace
      · simp only [traverseMany, hmem, if_true] at h
        exact RunnerError.noConfusion (Except.error.inj h)
      · obtain ⟨r, hr⟩ := hpres name (List.mem_cons_self _ _)
        simp only [traverseMany, hmem, if_false, hr] at h
        exact RunnerError.noConfusion (Except.error.inj h)
  | succ fuel ih =>
    intro pending trace hpres m h
    cases pending with
    | nil =>
      rw [traverseMany_nil] at h
      exact Except.noConfusion h
    | cons name siblings =>
      by_cases hmem : name ∈ trace
      · simp only [traverseMany, hmem, if_true] at h
        exact RunnerError.noConfusion (Except.error.inj h)
      · obtain ⟨req, hreq⟩ := hpres name (List.mem_cons_self _ _)
        cases hsub : traverseMany s fuel (depsOf req) (trace ++ [name]) with
        | error e2 =>
          simp only [traverseMany, hmem, if_false, hreq, hsub] at h
          obtain rfl := Except.error.inj h
          exact ih (depsOf req) (trace ++ [name]) (hClosed name req hreq) m hsub
        | ok sub =>
          cases hrest : traverseMany s fuel siblings trace with
          | error e2 =>
            simp only [traverseMany, hmem, if_false, hreq, hsub, hrest] at h
            obtain rfl := Except.error.inj h
            exact ih siblings trace (fun n hn => hpres n (List.mem_cons_of_mem _ hn)) m hrest
          | ok rest =>
            simp only [traverseMany, hmem, if_false, hreq, hsub, hrest] at h
            exact Except.noConfusion h

theorem traverseMany_success (s : Schema) (hClosed : ClosedSchema s)
    (hAcyclic : AcyclicSchema s) :
    ∀ fuel pending trace,
      (∀ n ∈ pending, ∃ r, alookup s.requests n = some r) →
      (∀ n ∈ pending, ∀ x ∈ trace, Relation.TransGen (dependsOnDirectly s) x n) →
      ((requestKeys s \ trace.toFinset).card + 1) * (maxDepsLen s + 1) + pending.length ≤ fuel →
      ∃ l, traverseMany s fuel pending trace = .ok l := by
  intro fuel
  induction fuel with
  | zero =>
    intro pending trace hpres hinv hfuel
    cases pending with
    | nil => exact ⟨[], traverseMany_nil s 0 trace⟩
    | cons name siblings =>
      have hpos : 0 < ((requestKeys s \ trace.toFinset).card + 1) * (maxDepsLen s + 1) :=
        Nat.mul_pos (Nat.succ_pos _) (Nat.succ_pos _)
      have hle : ((requestKeys s \ trace.toFinset).card + 1) * (maxDepsLen s + 1) ≤ 0 :=
        le_trans (Nat.le_add_right _ _) hfuel
      exact absurd hle (Nat.not_le.2 hpos)
  | succ fuel ih =>
    intro pending trace hpres hinv hfuel
    cases pending with
    | nil => exact ⟨[], traverseMany_nil s _ trace⟩
    | cons name siblings =>
      obtain ⟨req, hreq⟩ := hpres name (List.mem_cons_self _ _)
      have hmem : name ∉ trace := fun hc =>
        hAcyclic name (hinv name (List.mem_cons_self _ _) name hc)
      have hkey : name ∈ s.requests.map Prod.fst :=
        alookup_some_key_mem_keys s.requests name req hreq
      obtain ⟨sub, hsub⟩ := ih (depsOf req) (trace ++ [name])
        (hClosed name req hreq)
        (by
          intro d hd x hx
          rcases List.mem_append.1 hx with hx1 | hx2
          · exact Relation.TransGen.tail (hinv name (List.mem_cons_self _ _) x hx1)
              ⟨req, hreq, hd⟩
          · obtain rfl := List.mem_singleton.1 hx2
            exact Relation.TransGen.single ⟨req, hreq, hd⟩)
        (suf_deps _ _ _ _ _ siblings.length (by simpa using hfuel)
          (card_sdiff_append_lt s trace name hkey hmem)
          (depsLen_le_maxDepsLen s name req hreq))
      obtain ⟨rest, hrest⟩ := ih siblings trace
        (fun n hn => hpres n (List.mem_cons_of_mem _ hn))
        (fun n hn x hx => hinv n (List.mem_cons_of_mem _ hn) x hx)
        (suf_siblings _ _ _ (by simpa using hfuel))
      exact ⟨(name :: sub) ++ rest, by
        simp only [traverseMany, hmem, if_false, hreq, hsub, hrest]⟩

end DotApi

namespace DotApi

/-! ## Properties of the generated call queue -/

theorem generateCallQueue_ok_inv (s : Schema) (root : String) (q : List String)
    (h : generateCallQueue s root = .ok q) :
    ∃ raw, traverseMany s (initialFuel s) [root] [] = .ok raw
      ∧ q = dedupKeepFirst [] raw.reverse := by
  cases htrav : traverseMany s (initialFuel s) [root] [] with
  | error e =>
    simp only [generateCallQueue, traverseRequestStack, htrav] at h
    exact Except.noConfusion h
  | ok raw =>
    simp only [generateCallQueue, traverseRequestStack, htrav] at h
    exact ⟨raw, rfl, (Except.ok.inj h).symm⟩

theorem generateCallQueue_error_inv (s : Schema) (root : String) (e : RunnerError)
    (h : generateCallQueue s root = .error e) :
    traverseMany s (initialFuel s) [root] [] = .error e := by
  cases htrav : traverseMany s (initialFuel s) [root] [] with
  | error e2 =>
    simp only [generateCallQueue, traverseRequestStack, htrav] at h
    exact h
  | ok raw =>
    simp only [generateCallQueue, traverseRequestStack, htrav] at h
    exact Except.noConfusion h

theorem traverseMany_single_ok (s : Schema) (fuel : Nat) (n : String) (trace l : List String)
    (h : traverseMany s fuel [n] trace = .ok l) :
    ∃ sub, l = n :: sub ∧ n ∉ sub := by
  cases fuel with
  | zero => exact absurd h (traverseMany_zero_cons s n [] trace l)
  | succ fuel =>
    obtain ⟨hmem, req, sub, rest, hreq, hsub, hrest, rfl⟩ :=
      traverseMany_cons_ok s fuel n [] trace l h
    obtain rfl := traverseMany_nil_ok s fuel trace rest hrest
    refine ⟨sub, by simp, fun hc => ?_⟩
    exact traverseMany_ok_fresh s fuel (depsOf req) (trace ++ [n]) sub hsub n hc
      (List.mem_append_right _ (List.mem_cons_self _ _))

theorem generateCallQueue_ok_spec (s : Schema) (root : String) (q : List String)
    (h : generateCallQueue s root = .ok q) :
    q.Nodup
    ∧ (∀ x ∈ q, Relation.ReflTransGen (dependsOnDirectly s) root x)
    ∧ (∀ x, Relation.ReflTransGen (dependsOnDirectly s) root x → x ∈ q)
    ∧ (∀ u r v, alookup s.requests u = some r → v ∈ depsOf r → u ∈ q →
        q.indexOf v < q.indexOf u) := by
  obtain ⟨raw, htrav, rfl⟩ := generateCallQueue_ok_inv s root q h
  have hmemq : ∀ x, x ∈ dedupKeepFirst [] raw.reverse ↔ x ∈ raw := by
    intro x
    rw [mem_dedupKeepFirst]
    simp
  have hnd : (dedupKeepFirst [] raw.reverse).Nodup := nodup_dedupKeepFirst _ _
  have hclosure : ∀ u r v, alookup s.requests u = some r → v ∈ depsOf r →
      u ∈ raw → v ∈ raw := by
    intro u r v hr hv hu
    exact afterLast_subset u raw v
      (traverseMany_ok_depsAfterLast s _ _ _ raw htrav u r v hr hv hu)
  refine ⟨hnd, ?_, ?_, ?_⟩
  · intro x hx
    obtain ⟨n, hn, hreach⟩ :=
      traverseMany_ok_reachable s _ _ _ raw htrav x ((hmemq x).1 hx)
    obtain rfl := List.mem_singleton.1 hn
    exact hreach
  · intro x hx
    induction hx with
    | refl =>
      exact (hmemq root).2
        (traverseMany_ok_covers s _ _ _ raw htrav root (List.mem_cons_self _ _))
    | tail hab hbc ih =>
      obtain ⟨r, hr, hv⟩ := hbc
      exact (hmemq _).2 (hclosure _ r _ hr hv ((hmemq _).1 ih))
  · intro u r v hr hv hu
    have huraw : u ∈ raw := (hmemq u).1 hu
    have hAL : v ∈ afterLast u raw :=
      traverseMany_ok_depsAfterLast s _ _ _ raw htrav u r v hr hv huraw
    obtain ⟨l1, l2, heq, hnot, hvin⟩ := afterLast_decomp u raw huraw v hAL
    have hrev : raw.reverse = l2.reverse ++ u :: l1.reverse := by
      rw [heq]
      simp
    obtain ⟨q1, q2, heq2, huq2⟩ := dedupKeepFirst_before l2.reverse [] u l1.reverse v
      (List.not_mem_nil u) (fun hc => hnot (List.mem_reverse.1 hc))
      (List.mem_reverse.2 hvin) (List.not_mem_nil v)
    rw [hrev, heq2]
    rw [hrev, heq2] at hnd
    exact indexOf_lt_of_decomp q1 v q2 u hnd huq2

theorem generateCallQueue_ok_closed (s : Schema) (root : String) (q : List String)
    (h : generateCallQueue s root = .ok q) :
    ∀ u v, Relation.TransGen (dependsOnDirectly s) u v → u ∈ q → v ∈ q := by
  obtain ⟨raw, htrav, rfl⟩ := generateCallQueue_ok_inv s root q h
  have hmemq : ∀ x, x ∈ dedupKeepFirst [] raw.reverse ↔ x ∈ raw := by
    intro x
    rw [mem_dedupKeepFirst]
    simp
  have hclosure : ∀ u r v, alookup s.requests u = some r → v ∈ depsOf r →
      u ∈ raw → v ∈ raw := by
    intro u r v hr hv hu
    exact afterLast_subset u raw v
      (traverseMany_ok_depsAfterLast s _ _ _ raw htrav u r v hr hv hu)
  intro u v htg hu
  induction htg with
  | single hr =>
    obtain ⟨r, hrr, hv⟩ := hr
    exact (hmemq _).2 (hclosure _ r _ hrr hv ((hmemq _).1 hu))
  | tail hab hbc ih =>
    obtain ⟨r, hrr, hv⟩ := hbc
    exact (hmemq _).2 (hclosure _ r _ hrr hv ((hmemq _).1 ih))

theorem generateCallQueue_ok_transGen_ordering (s : Schema) (root : String) (q : List String)
    (h : generateCallQueue s root = .ok q) :
    ∀ u v, Relation.TransGen (dependsOnDirectly s) u v → u ∈ q →
      q.indexOf v < q.indexOf u := by
  intro u v htg hu
  induction htg with
  | single hr =>
    obtain ⟨r, hrr, hv⟩ := hr
    exact (generateCallQueue_ok_spec s root q h).2.2.2 u r _ hrr hv hu
  | tail hab hbc ih =>
    obtain ⟨r, hrr, hv⟩ := hbc
    have hbq : _ ∈ q := generateCallQueue_ok_closed s root q h u _ hab hu
    exact lt_trans ((generateCallQueue_ok_spec s root q h).2.2.2 _ r _ hrr hv hbq) ih

theorem initialFuel_suf (s : Schema) :
    ((requestKeys s \ ([] : List String).toFinset).card + 1) * (maxDepsLen s + 1) + 1 ≤
      initialFuel s := by
  have hcard : (requestKeys s \ ([] : List String).toFinset).card ≤ s.requests.length := by
    rw [List.toFinset_nil, Finset.sdiff_empty]
    calc (requestKeys s).card ≤ (s.requests.map Prod.fst).length := List.toFinset_card_le _
    _ = s.requests.length := List.length_map _ _
  have hmul : ((requestKeys s \ ([] : List String).toFinset).card + 1) * (maxDepsLen s + 1) ≤
      (s.requests.length + 1) * (maxDepsLen s + 1) :=
    Nat.mul_le_mul_right _ (by omega)
  unfold initialFuel
  omega

end DotApi

namespace DotApi

theorem generateCallQueue_success (s : Schema) (root : String) (r : Request)
    (hClosed : ClosedSchema s) (hAcyclic : AcyclicSchema s)
    (hroot : alookup s.requests root = some r) :
    ∃ q, generateCallQueue s root = .ok q := by
  obtain ⟨l, hl⟩ := traverseMany_success s hClosed hAcyclic (initialFuel s) [root] []
    (by
      intro n hn
      obtain rfl := List.mem_singleton.1 hn
      exact ⟨r, hroot⟩)
    (by
      intro n hn x hx
      exact absurd hx (List.not_mem_nil x))
    (by simpa using initialFuel_suf s)
  exact ⟨dedupKeepFirst [] l.reverse,
    by simp only [generateCallQueue, traverseRequestStack, hl]⟩

theorem generateCallQueue_cycle_error (s : Schema) (root : String) (r : Request)
    (hClosed : ClosedSchema s) (hroot : alookup s.requests root = some r)
    (u : String) (hreach : Relation.ReflTransGen (dependsOnDirectly s) root u)
    (hcyc : Relation.TransGen (dependsOnDirectly s) u u) :
    ∃ t n, generateCallQueue s root = .error (.circularDependency t n) ∧ n ∈ t := by
  cases hres : generateCallQueue s root with
  | ok q =>
    have hu : u ∈ q := (generateCallQueue_ok_spec s root q hres).2.2.1 u hreach
    have hlt := generateCallQueue_ok_transGen_ordering s root q hres u u hcyc hu
    exact absurd hlt (lt_irrefl _)
  | error e =>
    have htrav := generateCallQueue_error_inv s root e hres
    rcases traverseMany_error_cases s _ _ _ e htrav with rfl | ⟨t, n, rfl, hn⟩ | ⟨m, rfl, hm⟩
    · exact absurd htrav
        (traverseMany_ne_nonTermination s (initialFuel s) [root] []
          (by simpa using initialFuel_suf s))
    · exact ⟨t, n, rfl, hn⟩
    · exact absurd htrav
        (traverseMany_no_notFound s hClosed (initialFuel s) [root] []
          (by
            intro n2 hn2
            obtain rfl := List.mem_singleton.1 hn2
            exact ⟨r, hroot⟩) m)

theorem generateCallQueue_last (s : Schema) (root : String) (q : List String)
    (h : generateCallQueue s root = .ok q) :
    q ≠ [] ∧ q.getLast? = some root := by
  obtain ⟨raw, htrav, rfl⟩ := generateCallQueue_ok_inv s root q h
  obtain ⟨sub, rfl, hnotin⟩ := traverseMany_single_ok s (initialFuel s) root [] raw htrav
  have hrev : (root :: sub).reverse = sub.reverse ++ [root] := by simp
  rw [hrev, dedupKeepFirst_append_singleton sub.reverse [] root (List.not_mem_nil root)
    (fun hc => hnotin (List.mem_reverse.1 hc))]
  constructor
  · simp
  · exact List.getLast?_concat _

end DotApi

namespace DotApi

/-! ## Concrete graph fixtures (the spec's §8 examples) -/

/-- A GET request with the given dependency list. -/
def mkRequest (deps : List String) : Request :=
  { method := "GET", url := "http://localhost", doc := "",
    config := some { depends_on := deps, delay := none, timeout := none, retries := 0 },
    headers := none, query := none, body := none, script := none }

theorem depsOf_mkRequest (deps : List String) : depsOf (mkRequest deps) = deps := rfl

/-- The chain A depends_on [B], B depends_on [C]. -/
def chainSchema : Schema :=
  { filename := "chain.yaml", imports := [], env := [],
    requests := [("A", mkRequest ["B"]), ("B", mkRequest ["C"]), ("C", mkRequest [])],
    calls := [], project := none }

/-- The diamond A depends_on [B, C]; B depends_on [D]; C depends_on [D]. -/
def diamondSchema : Schema :=
  { filename := "diamond.yaml", imports := [], env := [],
    requests := [("A", mkRequest ["B", "C"]), ("B", mkRequest ["D"]),
                 ("C", mkRequest ["D"]), ("D", mkRequest [])],
    calls := [], project := none }

/-- The two-cycle A depends_on [B], B depends_on [A]. -/
def cycleSchema : Schema :=
  { filename := "cycle.yaml", imports := [], env := [],
    requests := [("A", mkRequest ["B"]), ("B", mkRequest ["A"])],
    calls := [], project := none }

theorem chainSchema_closed : ClosedSchema chainSchema := by
  intro u r h v hv
  have hmem := alookup_eq_some_mem _ _ _ h
  simp only [chainSchema, List.mem_cons, List.not_mem_nil, or_false, Prod.mk.injEq] at hmem
  rcases hmem with ⟨rfl, rfl⟩ | ⟨rfl, rfl⟩ | ⟨rfl, rfl⟩
  · rw [depsOf_mkRequest, List.mem_singleton] at hv
    subst hv
    exact ⟨mkRequest ["C"], rfl⟩
  · rw [depsOf_mkRequest, List.mem_singleton] at hv
    subst hv
    exact ⟨mkRequest [], rfl⟩
  · rw [depsOf_mkRequest] at hv
    exact absurd hv (List.not_mem_nil v)

/-- A rank function witnessing that the chain graph is acyclic. -/
def chainRank (n : String) : Nat :=
  if n = "A" then 2 else if n = "B" then 1 else 0

theorem chainSchema_acyclic : AcyclicSchema chainSchema := by
  have hstep : ∀ u v, dependsOnDirectly chainSchema u v → chainRank v < chainRank u := by
    rintro u v ⟨r, hr, hv⟩
    have hmem := alookup_eq_some_mem _ _ _ hr
    simp only [chainSchema, List.mem_cons, List.not_mem_nil, or_false, Prod.mk.injEq] at hmem
    rcases hmem with ⟨rfl, rfl⟩ | ⟨rfl, rfl⟩ | ⟨rfl, rfl⟩
    · rw [depsOf_mkRequest, List.mem_singleton] at hv
      subst hv
      decide
    · rw [depsOf_mkRequest, List.mem_singleton] at hv
      subst hv
      decide
    · rw [depsOf_mkRequest] at hv
      exact absurd hv (List.not_mem_nil v)
  have htg : ∀ u v, Relation.TransGen (dependsOnDirectly chainSchema) u v →
      chainRank v < chainRank u := by
    intro u v h
    induction h with
    | single hr => exact hstep _ _ hr
    | tail hab hbc ih => exact lt_trans (hstep _ _ hbc) ih
  intro u hu
  exact lt_irrefl _ (htg u u hu)

theorem cycleSchema_closed : ClosedSchema cycleSchema := by
  intro u r h v hv
  have hmem := alookup_eq_some_mem _ _ _ h
  simp only [cycleSchema, List.mem_cons, List.not_mem_nil, or_false, Prod.mk.injEq] at hmem
  rcases hmem with ⟨rfl, rfl⟩ | ⟨rfl, rfl⟩
  · rw [depsOf_mkRequest, List.mem_singleton] at hv
    subst hv
    exact ⟨mkRequest ["A"], rfl⟩
  · rw [depsOf_mkRequest, List.mem_singleton] at hv
    subst hv
    exact ⟨mkRequest ["B"], rfl⟩

end DotApi

namespace DotApi

/-- C2: for every closed acyclic dependency graph with the requested name
present, `generate_call_queue` succeeds, and every queue it produces contains
each name reachable from the root exactly once (no duplicates, membership
equals reachability along `depends_on` edges) with every dependency strictly
before every request that directly or transitively depends on it; on the
concrete chain A→B→C it returns `[C, B, A]`, and on the diamond
(A→[B,C], B→[D], C→[D]) it returns `[D, C, B, A]`, in which D occurs once
and precedes B and C, which precede A. -/
theorem c2_call_queue_order_and_dedup :
    (∀ (s : Schema) (root : String) (r : Request),
        ClosedSchema s → AcyclicSchema s → alookup s.requests root = some r →
        ∃ q, generateCallQueue s root = .ok q)
    ∧ (∀ (s : Schema) (root : String) (q : List String),
        generateCallQueue s root = .ok q →
        q.Nodup
        ∧ (∀ x, x ∈ q ↔ Relation.ReflTransGen (dependsOnDirectly s) root x)
        ∧ (∀ u v, Relation.TransGen (dependsOnDirectly s) u v → u ∈ q →
            q.indexOf v < q.indexOf u))
    ∧ generateCallQueue chainSchema "A" = .ok ["C", "B", "A"]
    ∧ generateCallQueue diamondSchema "A" = .ok ["D", "C", "B", "A"] := by
  refine ⟨fun s root r hC hA hroot => generateCallQueue_success s root r hC hA hroot,
    fun s root q h => ?_, rfl, rfl⟩
  obtain ⟨hnd, hfwd, hbwd, _⟩ := generateCallQueue_ok_spec s root q h
  exact ⟨hnd, fun x => ⟨hfwd x, hbwd x⟩,
    generateCallQueue_ok_transGen_ordering s root q h⟩

/-- The hypotheses of `c2_call_queue_order_and_dedup` discharged on the
concrete chain fixture. -/
theorem c2_call_queue_order_and_dedup_witness :
    (∃ q, generateCallQueue chainSchema "A" = .ok q)
    ∧ (["C", "B", "A"] : List String).Nodup := by
  refine ⟨c2_call_queue_order_and_dedup.1 chainSchema "A" (mkRequest ["B"])
      chainSchema_closed chainSchema_acyclic rfl,
    (c2_call_queue_order_and_dedup.2.1 chainSchema "A" ["C", "B", "A"] rfl).1⟩

/-- C9: every successfully generated call queue is non-empty and ends with
the requested name itself. -/
theorem c9_queue_ends_with_requested (s : Schema) (root : String) (q : List String)
    (h : generateCallQueue s root = .ok q) : q ≠ [] ∧ q.getLast? = some root :=
  generateCallQueue_last s root q h

/-- The hypothesis of `c9_queue_ends_with_requested` discharged on the
concrete chain fixture. -/
theorem c9_queue_ends_with_requested_witness :
    (["C", "B", "A"] : List String) ≠ []
    ∧ (["C", "B", "A"] : List String).getLast? = some "A" :=
  c9_queue_ends_with_requested chainSchema "A" ["C", "B", "A"] rfl

/-- The error-message rendering of the circular-dependency trace
(runner.rs lines 455-461): iterate the ancestor `HashSet` in whatever order
the hash iterator yields — `setOrder`, an arbitrary enumeration of the set —
then append the offending name. -/
def circularTraceMessage (setOrder : List String → List String)
    (trace : List String) (name : String) : List String :=
  setOrder trace ++ [name]

/-- C3 counterexample: on the two-cycle the traversal visits A then B, but
the trace is kept in a `HashSet`, so a legitimate iteration order of that set
(here: the reverse of visitation order, a permutation of the set) renders a
message trace that is not the ordered visitation trace followed by the
offending name — the error does not carry the *ordered* trace the claim
describes. -/
theorem c3_trace_not_ordered_counterexample :
    generateCallQueue cycleSchema "A" = .error (.circularDependency ["A", "B"] "A")
    ∧ (List.reverse ["A", "B"]).Perm ["A", "B"]
    ∧ circularTraceMessage List.reverse ["A", "B"] "A" ≠ ["A", "B"] ++ ["A"] := by
  refine ⟨rfl, List.reverse_perm _, ?_⟩
  decide

/-- C3 (amended): for every closed dependency graph with a cycle reachable
from the requested (present) name, `generate_call_queue` fails with a
`CircularDependency` error carrying the set of names visited so far plus the
offending name (the offending name is itself among the visited names); on
the two-cycle fixture the visited set is {A, B} — and every rendering of the
message under any iteration order of that set mentions both names. -/
theorem c3_cycle_detection_amended :
    (∀ (s : Schema) (root : String) (r : Request) (u : String),
        ClosedSchema s → alookup s.requests root = some r →
        Relation.ReflTransGen (dependsOnDirectly s) root u →
        Relation.TransGen (dependsOnDirectly s) u u →
        ∃ t n, generateCallQueue s root = .error (.circularDependency t n) ∧ n ∈ t)
    ∧ generateCallQueue cycleSchema "A" = .error (.circularDependency ["A", "B"] "A")
    ∧ (∀ setOrder : List String → List String,
        (setOrder ["A", "B"]).Perm ["A", "B"] →
        "A" ∈ circularTraceMessage setOrder ["A", "B"] "A"
        ∧ "B" ∈ circularTraceMessage setOrder ["A", "B"] "A") := by
  refine ⟨fun s root r u hC hroot hreach hcyc =>
      generateCallQueue_cycle_error s root r hC hroot u hreach hcyc, rfl,
    fun setOrder hperm => ⟨?_, ?_⟩⟩
  · exact List.mem_append_right _ (List.mem_singleton.2 rfl)
  · refine List.mem_append_left _ (hperm.mem_iff.2 ?_)
    decide

/-- The hypotheses of `c3_cycle_detection_amended` discharged on the
two-cycle fixture. -/
theorem c3_cycle_detection_amended_witness :
    ∃ t n, generateCallQueue cycleSchema "A" = .error (.circularDependency t n) ∧ n ∈ t := by
  have hAB : dependsOnDirectly cycleSchema "A" "B" :=
    ⟨mkRequest ["B"], rfl, List.mem_singleton.2 rfl⟩
  have hBA : dependsOnDirectly cycleSchema "B" "A" :=
    ⟨mkRequest ["A"], rfl, List.mem_singleton.2 rfl⟩
  exact c3_cycle_detection_amended.1 cycleSchema "A" (mkRequest ["B"]) "A" cycleSchema_closed
    rfl Relation.ReflTransGen.refl
    (Relation.TransGen.head hAB (Relation.TransGen.single hBA))

end DotApi

namespace DotApi

/-! ## Merge lemmas (C6) -/

/-- The key list of a schema collection. -/
def collKeys {α : Type} (coll : List (String × α)) : List String := coll.map Prod.fst

theorem containsKey_iff_mem {α : Type} :
    ∀ (l : List (String × α)) (k : String), containsKey l k = true ↔ k ∈ collKeys l := by
  intro l
  induction l with
  | nil => intro k; simp [containsKey, collKeys]
  | cons kv rest ih =>
    intro k
    obtain ⟨k0, v0⟩ := kv
    simp only [containsKey, collKeys, List.map_cons, List.mem_cons, Bool.or_eq_true,
      decide_eq_true_eq]
    rw [ih]
    constructor
    · rintro (rfl | h)
      · exact Or.inl rfl
      · exact Or.inr h
    · rintro (rfl | h)
      · exact Or.inl rfl
      · exact Or.inr h

theorem containsKey_append {α : Type} :
    ∀ (l1 l2 : List (String × α)) (k : String),
      containsKey (l1 ++ l2) k = (containsKey l1 k || containsKey l2 k) := by
  intro l1
  induction l1 with
  | nil => intro l2 k; simp [containsKey]
  | cons kv rest ih =>
    intro l2 k
    obtain ⟨k0, v0⟩ := kv
    simp only [List.cons_append, containsKey, List.append_eq, ih, Bool.or_assoc]

theorem extendColl_ok {α : Type} (kind : ConflictKind) (f1 f2 : String) :
    ∀ (icoll acc : List (String × α)),
      (collKeys icoll).Nodup →
      (∀ k ∈ collKeys icoll, containsKey acc k = false) →
      extendColl kind f1 f2 acc icoll = .ok (acc ++ icoll) := by
  intro icoll
  induction icoll with
  | nil => intro acc _ _; simp [extendColl]
  | cons kv rest ih =>
    intro acc hnd hdisj
    obtain ⟨key, value⟩ := kv
    have hkey : containsKey acc key = false :=
      hdisj key (List.mem_cons_self _ _)
    have hnd2 := List.nodup_cons.1 hnd
    rw [extendColl, if_neg (by simp [hkey]), ih (acc ++ [(key, value)]) hnd2.2 ?_]
    · simp
    · intro k hk
      rw [containsKey_append, hdisj k (List.mem_cons_of_mem _ hk), Bool.false_or]
      have hne : key ≠ k := fun hc => hnd2.1 (hc ▸ hk)
      simp [containsKey, hne]

theorem extendColl_conflict {α : Type} (kind : ConflictKind) (f1 f2 : String) :
    ∀ (icoll acc : List (String × α)),
      (∃ k ∈ collKeys icoll, containsKey acc k = true) →
      extendColl kind f1 f2 acc icoll = .error (.nameConflict kind f1 f2) := by
  intro icoll
  induction icoll with
  | nil =>
    intro acc h
    obtain ⟨k, hk, _⟩ := h
    exact absurd hk (List.not_mem_nil k)
  | cons kv rest ih =>
    intro acc h
    obtain ⟨key, value⟩ := kv
    by_cases hc : containsKey acc key = true
    · rw [extendColl, if_pos hc]
    · obtain ⟨k, hk, hck⟩ := h
      have hkrest : k ∈ collKeys rest := by
        rcases List.mem_cons.1 hk with rfl | h2
        · exact absurd hck hc
        · exact h2
      rw [extendColl, if_neg hc, ih (acc ++ [(key, value)]) ⟨k, hkrest, ?_⟩]
      rw [containsKey_append, hck, Bool.true_or]

/-- The duplicate-free-keys invariant every real `HashMap`-backed schema
satisfies. -/
def SchemaWF (s : Schema) : Prop :=
  (collKeys s.env).Nodup ∧ (collKeys s.requests).Nodup ∧ (collKeys s.calls).Nodup

/-- Two schemas declare no common name in any of the three merged
collections. -/
def SchemaDisjoint (a b : Schema) : Prop :=
  (∀ k ∈ collKeys a.env, k ∉ collKeys b.env)
  ∧ (∀ k ∈ collKeys a.requests, k ∉ collKeys b.requests)
  ∧ (∀ k ∈ collKeys a.calls, k ∉ collKeys b.calls)

theorem mergeOne_disjoint_ok (acc i : Schema) (hwf : SchemaWF i)
    (hdisj : SchemaDisjoint acc i) :
    mergeOne acc i = .ok { acc with
      env := acc.env ++ i.env,
      requests := acc.requests ++ i.requests,
      calls := acc.calls ++ i.calls } := by
  have henv : ∀ k ∈ collKeys i.env, containsKey acc.env k = false := by
    intro k hk
    cases h2 : containsKey acc.env k
    · rfl
    · exact absurd hk (hdisj.1 k ((containsKey_iff_mem _ _).1 h2))
  have hreq : ∀ k ∈ collKeys i.requests, containsKey acc.requests k = false := by
    intro k hk
    cases h2 : containsKey acc.requests k
    · rfl
    · exact absurd hk (hdisj.2.1 k ((containsKey_iff_mem _ _).1 h2))
  have hcall : ∀ k ∈ collKeys i.calls, containsKey acc.calls k = false := by
    intro k hk
    cases h2 : containsKey acc.calls k
    · rfl
    · exact absurd hk (hdisj.2.2 k ((containsKey_iff_mem _ _).1 h2))
  rw [mergeOne, extendColl_ok _ _ _ i.env acc.env hwf.1 henv,
    extendColl_ok _ _ _ i.requests acc.requests hwf.2.1 hreq,
    extendColl_ok _ _ _ i.calls acc.calls hwf.2.2 hcall]

end DotApi

namespace DotApi

theorem mergeOne_filename (acc i : Schema) (m : Schema) (h : mergeOne acc i = .ok m) :
    m.filename = acc.filename ∧ m.project = acc.project := by
  rw [mergeOne] at h
  cases h1 : extendColl ConflictKind.envVar acc.filename i.filename acc.env i.env with
  | error e => rw [h1] at h; exact Except.noConfusion h
  | ok newEnv =>
    rw [h1] at h
    cases h2 : extendColl ConflictKind.request acc.filename i.filename acc.requests i.requests with
    | error e => rw [h2] at h; exact Except.noConfusion h
    | ok newReq =>
      rw [h2] at h
      cases h3 : extendColl ConflictKind.callSequence acc.filename i.filename acc.calls i.calls with
      | error e => rw [h3] at h; exact Except.noConfusion h
      | ok newCalls =>
        rw [h3] at h
        obtain rfl := (Except.ok.inj h).symm
        exact ⟨rfl, rfl⟩

theorem mergeImports_disjoint_ok :
    ∀ (imports : List Schema) (acc : Schema),
      (∀ i ∈ imports, SchemaWF i) →
      (∀ i ∈ imports, SchemaDisjoint acc i) →
      List.Pairwise SchemaDisjoint imports →
      ∃ merged, mergeImports acc imports = .ok merged
        ∧ merged.env = acc.env ++ (imports.map Schema.env).flatten
        ∧ merged.requests = acc.requests ++ (imports.map Schema.requests).flatten
        ∧ merged.calls = acc.calls ++ (imports.map Schema.calls).flatten
        ∧ merged.filename = acc.filename ∧ merged.project = acc.project := by
  intro imports
  induction imports with
  | nil =>
    intro acc _ _ _
    exact ⟨acc, rfl, by simp, by simp, by simp, rfl, rfl⟩
  | cons i rest ih =>
    intro acc hwf hdisj hpw
    have hmi := mergeOne_disjoint_ok acc i (hwf i (List.mem_cons_self _ _))
      (hdisj i (List.mem_cons_self _ _))
    have hpw2 := List.pairwise_cons.1 hpw
    obtain ⟨merged, hmerge, henv, hreq, hcall, hfn, hpj⟩ := ih
      { acc with
        env := acc.env ++ i.env,
        requests := acc.requests ++ i.requests,
        calls := acc.calls ++ i.calls }
      (fun j hj => hwf j (List.mem_cons_of_mem _ hj))
      (by
        intro j hj
        have haj := hdisj j (List.mem_cons_of_mem _ hj)
        have hij := hpw2.1 j hj
        refine ⟨?_, ?_, ?_⟩
        · intro k hk
          simp only [collKeys, List.map_append, List.mem_append] at hk
          rcases hk with hk | hk
          · exact haj.1 k hk
          · exact hij.1 k hk
        · intro k hk
          simp only [collKeys, List.map_append, List.mem_append] at hk
          rcases hk with hk | hk
          · exact haj.2.1 k hk
          · exact hij.2.1 k hk
        · intro k hk
          simp only [collKeys, List.map_append, List.mem_append] at hk
          rcases hk with hk | hk
          · exact haj.2.2 k hk
          · exact hij.2.2 k hk)
      hpw2.2
    refine ⟨merged, ?_, by simpa using henv, by simpa using hreq, by simpa using hcall,
      hfn, hpj⟩
    simp only [mergeImports, hmi]
    exact hmerge

theorem mergeOne_conflict (acc i : Schema) (hwf : SchemaWF i)
    (hconf : (∃ k ∈ collKeys i.env, k ∈ collKeys acc.env)
      ∨ (∃ k ∈ collKeys i.requests, k ∈ collKeys acc.requests)
      ∨ (∃ k ∈ collKeys i.calls, k ∈ collKeys acc.calls)) :
    ∃ kind, mergeOne acc i = .error (.nameConflict kind acc.filename i.filename) := by
  by_cases henv : ∃ k ∈ collKeys i.env, k ∈ collKeys acc.env
  · obtain ⟨k, hk1, hk2⟩ := henv
    refine ⟨.envVar, ?_⟩
    rw [mergeOne, extendColl_conflict _ _ _ i.env acc.env
      ⟨k, hk1, (containsKey_iff_mem _ _).2 hk2⟩]
  · have henv2 : ∀ k ∈ collKeys i.env, containsKey acc.env k = false := by
      intro k hk
      cases h2 : containsKey acc.env k
      · rfl
      · exact absurd ⟨k, hk, (containsKey_iff_mem _ _).1 h2⟩ henv
    by_cases hreq : ∃ k ∈ collKeys i.requests, k ∈ collKeys acc.requests
    · obtain ⟨k, hk1, hk2⟩ := hreq
      refine ⟨.request, ?_⟩
      rw [mergeOne, extendColl_ok _ _ _ i.env acc.env hwf.1 henv2,
        extendColl_conflict _ _ _ i.requests acc.requests
          ⟨k, hk1, (containsKey_iff_mem _ _).2 hk2⟩]
    · have hreq2 : ∀ k ∈ collKeys i.requests, containsKey acc.requests k = false := by
        intro k hk
        cases h2 : containsKey acc.requests k
        · rfl
        · exact absurd ⟨k, hk, (containsKey_iff_mem _ _).1 h2⟩ hreq
      have hcall : ∃ k ∈ collKeys i.calls, k ∈ collKeys acc.calls := by
        rcases hconf with h | h | h
        · exact absurd h henv
        · exact absurd h hreq
        · exact h
      obtain ⟨k, hk1, hk2⟩ := hcall
      refine ⟨.callSequence, ?_⟩
      rw [mergeOne, extendColl_ok _ _ _ i.env acc.env hwf.1 henv2,
        extendColl_ok _ _ _ i.requests acc.requests hwf.2.1 hreq2,
        extendColl_conflict _ _ _ i.calls acc.calls
          ⟨k, hk1, (containsKey_iff_mem _ _).2 hk2⟩]

end DotApi

namespace DotApi

/-- C6: merging a root schema with loaded imports whose keys are pairwise
disjoint succeeds, with each of the three collections equal to the union
(concatenation, in import order) of the constituents; and whenever
an imported entry's key — in `env`, `requests` or `calls` — already exists in
the accumulating schema, the merge fails with a name-conflict error that
names the accumulating file and the imported file. -/
theorem c6_merge_union_and_conflict :
    (∀ (root : Schema) (imports : List Schema),
        (∀ i ∈ imports, SchemaWF i) →
        (∀ i ∈ imports, SchemaDisjoint root i) →
        List.Pairwise SchemaDisjoint imports →
        ∃ merged, mergeImports root imports = .ok merged
          ∧ merged.env = root.env ++ (imports.map Schema.env).flatten
          ∧ merged.requests = root.requests ++ (imports.map Schema.requests).flatten
          ∧ merged.calls = root.calls ++ (imports.map Schema.calls).flatten
          ∧ merged.filename = root.filename)
    ∧ (∀ (acc i : Schema), SchemaWF i →
        ((∃ k ∈ collKeys i.env, k ∈ collKeys acc.env)
          ∨ (∃ k ∈ collKeys i.requests, k ∈ collKeys acc.requests)
          ∨ (∃ k ∈ collKeys i.calls, k ∈ collKeys acc.calls)) →
        ∃ kind, mergeOne acc i = .error (.nameConflict kind acc.filename i.filename)) := by
  constructor
  · intro root imports hwf hdisj hpw
    obtain ⟨m, h1, h2, h3, h4, h5, _⟩ := mergeImports_disjoint_ok imports root hwf hdisj hpw
    exact ⟨m, h1, h2, h3, h4, h5⟩
  · exact mergeOne_conflict

/-- A concrete root schema declaring one variable, one request and one call
sequence. -/
def c6Root : Schema :=
  { filename := "root.yaml", imports := ["a.yaml"],
    env := [("x", { default := .str "1", overrides := [] })],
    requests := [("r1", mkRequest [])], calls := [("s1", ["r1"])], project := none }

/-- An import with keys disjoint from `c6Root`. -/
def c6Import : Schema :=
  { filename := "a.yaml", imports := [],
    env := [("y", { default := .str "2", overrides := [] })],
    requests := [("r2", mkRequest [])], calls := [], project := none }

/-- An import that re-declares the environment variable `x` of `c6Root`. -/
def c6Conflicting : Schema :=
  { filename := "b.yaml", imports := [],
    env := [("x", { default := .str "3", overrides := [] })],
    requests := [], calls := [], project := none }

/-- The hypotheses of `c6_merge_union_and_conflict` discharged at concrete
schemas: a disjoint merge succeeds and a re-declared variable name yields
the conflict error naming both files. -/
theorem c6_merge_union_and_conflict_witness :
    (∃ merged, mergeImports c6Root [c6Import] = .ok merged
      ∧ merged.env = c6Root.env ++ ([c6Import].map Schema.env).flatten
      ∧ merged.requests = c6Root.requests ++ ([c6Import].map Schema.requests).flatten
      ∧ merged.calls = c6Root.calls ++ ([c6Import].map Schema.calls).flatten
      ∧ merged.filename = c6Root.filename)
    ∧ (∃ kind, mergeOne c6Root c6Conflicting =
        .error (.nameConflict kind "root.yaml" "b.yaml")) := by
  constructor
  · refine c6_merge_union_and_conflict.1 c6Root [c6Import] ?_ ?_ (by simp)
    · intro i hi
      obtain rfl := List.mem_singleton.1 hi
      exact ⟨by decide, by decide, by decide⟩
    · intro i hi
      obtain rfl := List.mem_singleton.1 hi
      exact ⟨by decide, by decide, by decide⟩
  · exact c6_merge_union_and_conflict.2 c6Root c6Conflicting ⟨by decide, by decide, by decide⟩
      (Or.inl ⟨"x", by decide, by decide⟩)

end DotApi

namespace DotApi

/-! ## Import-tree error propagation (C7) -/

theorem importEach_ne_err (fs : List (String × Schema)) (f : String → Outcome Schema) :
    ∀ (ps : List String) (e : RunnerError), importEach fs f ps ≠ .err e := by
  intro ps
  induction ps with
  | nil =>
    intro e h
    exact Outcome.noConfusion h
  | cons p rest ih =>
    intro e h
    by_cases hc : containsKey fs p = true
    · cases hf : f p with
      | ok schema =>
        cases hrest : importEach fs f rest with
        | ok others => simp only [importEach, hc, if_true, hf, hrest] at h; exact Outcome.noConfusion h
        | err e2 => exact ih e2 hrest
        | panic e2 => simp only [importEach, hc, if_true, hf, hrest] at h; exact Outcome.noConfusion h
      | err e2 => simp only [importEach, hc, if_true, hf] at h; exact Outcome.noConfusion h
      | panic e2 => simp only [importEach, hc, if_true, hf] at h; exact Outcome.noConfusion h
    · have hc2 : containsKey fs p = false := by
        cases h2 : containsKey fs p
        · rfl
        · exact absurd h2 hc
      rw [importEach, if_neg (by simp [hc2])] at h
      exact ih e h

/-- The project section carried by the offending imported file. -/
def c7ChildProject : Project :=
  { name := "child", version := "", description := "", authors := [],
    generator := none, default_env := none }

/-- An imported (non-root) file that declares a `project` section. -/
def c7ChildSchema : Schema :=
  { filename := "", imports := [], env := [], requests := [], calls := [],
    project := some c7ChildProject }

/-- A root file importing the offending file directly. -/
def c7RootSchema : Schema :=
  { filename := "", imports := ["child.yaml"], env := [], requests := [], calls := [],
    project := none }

/-- An intermediate file importing the offending file. -/
def c7MidSchema : Schema :=
  { filename := "", imports := ["child.yaml"], env := [], requests := [], calls := [],
    project := none }

/-- A root file whose import tree reaches the offending file at depth two. -/
def c7DeepRootSchema : Schema :=
  { filename := "", imports := ["mid.yaml"], env := [], requests := [], calls := [],
    project := none }

/-- File system for the depth-one case. -/
def c7Fs : List (String × Schema) :=
  [("dir/root.yaml", c7RootSchema), ("dir/child.yaml", c7ChildSchema)]

/-- File system for the depth-two case. -/
def c7DeepFs : List (String × Schema) :=
  [("dir/root.yaml", c7DeepRootSchema), ("dir/mid.yaml", c7MidSchema),
   ("dir/child.yaml", c7ChildSchema)]

/-- C7: a non-root file declaring a `project` section does make every load
fail, at any depth — but through the `.unwrap()` applied to the
recursive-import result inside the `filter_map` closure (runner.rs line 67), the
`MisplacedProjectDefinition` error is converted into a process abort rather
than being returned to the caller as an error value: the import collector
can never return an error value, and on concrete import trees with the
offender at depth one and at depth two the load is a panic, not a returned
error. -/
theorem c7_misplaced_project_aborts_process :
    (∀ (fs : List (String × Schema)) (f : String → Outcome Schema) (ps : List String)
        (e : RunnerError), importEach fs f ps ≠ .err e)
    ∧ recursivelyImport c7Fs 2 "dir/root.yaml" true =
        .panic (.misplacedProjectDefinition "dir/child.yaml")
    ∧ recursivelyImport c7DeepFs 3 "dir/root.yaml" true =
        .panic (.misplacedProjectDefinition "dir/child.yaml")
    ∧ (∀ e, recursivelyImport c7Fs 2 "dir/root.yaml" true ≠ .err e) := by
  refine ⟨importEach_ne_err, rfl, rfl, fun e h => Outcome.noConfusion h⟩

end DotApi
